import Mathlib

/-!
Verification of the post-order directory-tree materialization iterator
(`PostOrderIterator` and its helpers in `src/unixfs/src/dir/builder/iter.rs`).

The tree data model (`DirBuilder`, `Entry`), the traversal frames (`Visited`,
`LeafStorage`), the deferred stash (`persisted_cids`, a hash map modelled as an
association list, used only through keyed operations), the path tracker
(`update_full_path`), the partitioner (`partition_children_leaves`), the
renderer (`render_directory`) and the pull loop (`next_borrowed`) are shallow
embeddings of the source.  Rust panics (`expect`, `assert!`, `panic!`, the
`todo!` in the path tracker, out-of-bounds indexing and the `unwrap` of an
unfilled link slot) are modelled as the `fatal` outcome / `none` results.

The directory block encoder and hasher (`CustomFlatUnixFs::get_size`,
protobuf `write_message`, `Sha256`, `Cid`) are external collaborators of this
file; they are modelled from the spec as total pure functions (see
`specEncode`, `specHash`).
-/

set_option maxHeartbeats 1000000

namespace Unixfs

/-- A content identifier, abstracted to a number produced by the modelled hash. -/
abbrev Cid := Nat

/-- `Leaf { link, total_size }`: an already-resolved child (file or finished subtree). -/
structure Leaf where
  link : Cid
  total_size : Nat
deriving DecidableEq, Repr

/-- `NamedLeaf(name, cid, total_size)`: a finished link carrying its name. -/
structure NamedLeaf where
  name : String
  link : Cid
  total_size : Nat
deriving DecidableEq, Repr

/-- The link list: positional, with `none` holes for unresolved subdirectories. -/
abbrev Leaves := List (Option NamedLeaf)

mutual
/-- `Entry`: a directory's child, either a nested unresolved directory or a resolved leaf. -/
inductive Entry where
  | directory (node : DirBuilder)
  | leaf (link : Cid) (total_size : Nat)

/-- The ordered children mapping of a `DirBuilder` (the `BTreeMap` in iteration order). -/
inductive EntryList where
  | nil
  | cons (name : String) (e : Entry) (rest : EntryList)

/-- `DirBuilder { parent_id, id, nodes }`: one directory node of the input tree. -/
inductive DirBuilder where
  | mk (parent_id : Option Nat) (id : Nat) (nodes : EntryList)
end

/-- The `parent_id` field of a `DirBuilder`. -/
def DirBuilder.parent_id : DirBuilder → Option Nat
  | .mk p _ _ => p

/-- The `id` field of a `DirBuilder`. -/
def DirBuilder.id : DirBuilder → Nat
  | .mk _ i _ => i

/-- The ordered children of a `DirBuilder`. -/
def DirBuilder.nodes : DirBuilder → EntryList
  | .mk _ _ n => n

/-- Append of ordered children lists (used to state decompositions of a directory's children). -/
def EntryList.append : EntryList → EntryList → EntryList
  | .nil, l => l
  | .cons k e rest, l => .cons k e (rest.append l)

/-- `TreeOptions { block_size_limit, wrap_with_directory }`. -/
structure TreeOptions where
  block_size_limit : Option Nat
  wrap_with_directory : Bool
deriving DecidableEq, Repr

/-- The construction failure type; `tooLargeBlock` carries the computed encoded size.
The protobuf variant exists in the source but the encoder is total (see the spec),
so it is never produced. -/
inductive TreeConstructionFailed where
  | tooLargeBlock (size : Nat)
  | protobuf
deriving DecidableEq, Repr

/-! ## Modelled encoder / hasher (external collaborators)

Modelled from the spec: the binary encoding of a directory block and the hash
deriving a CID from encoded bytes are external collaborators, used as total
pure functions `encode(links) -> (bytes, exact_size)` and `hash(bytes) -> cid`
(spec sections 1, 6).  The concrete choice below is arbitrary but fixed,
deterministic, and gives every link a positive encoded footprint. -/

/-- Modelled from the spec: bytes contributed by one filled link
(`encode` is total and depends only on the link's `(name, cid, size)` tuple). -/
def encodeLink (l : NamedLeaf) : List Nat :=
  (l.name.data.map Char.toNat) ++ [l.link, l.total_size]

/-- Modelled from the spec: `encode(links) -> bytes`, the exact encoded block bytes
of a link list (a fixed header byte followed by each filled link's bytes). -/
def specEncode (links : Leaves) : List Nat :=
  1 :: links.flatMap (fun o => match o with
    | some l => encodeLink l
    | none => [])

/-- Modelled from the spec: `get_size`, the exact encoded size of the block. -/
def specGetSize (links : Leaves) : Nat := (specEncode links).length

/-- Modelled from the spec: `hash(bytes) -> content_id` (Sha2-256 then CIDv0),
a total deterministic function of the exact encoded bytes. -/
def specHash (bytes : List Nat) : Cid :=
  bytes.foldl (fun a b => a * 1000003 + b + 7) 5

/-! ## Directory renderer (`PostOrderIterator::render_directory`) -/

/-- Sum of the `total_size` of every filled link (`combined_from_links`);
the source `unwrap`s each slot, which is modelled by the fullness check in
`render_directory` below. -/
def sumSizes (links : Leaves) : Nat :=
  (links.map (fun o => match o with
    | some l => l.total_size
    | none => 0)).sum

/-- `render_directory(links, buffer, block_size_limit)`.
Returns `none` for the panic of `unwrap`ping an unfilled slot, `some (.error _)`
for the size-limit failure (checked first, before anything is encoded or
hashed), and otherwise the produced `Leaf` together with the exact block bytes
left in the reused buffer. -/
def render_directory (links : Leaves) (block_size_limit : Option Nat) :
    Option (Except TreeConstructionFailed (Leaf × List Nat)) :=
  let size := specGetSize links
  match block_size_limit with
  | some limit =>
    if limit < size then
      some (.error (.tooLargeBlock size))
    else
      renderBody links
  | none => renderBody links
where
  renderBody (links : Leaves) : Option (Except TreeConstructionFailed (Leaf × List Nat)) :=
    if links.all Option.isSome then
      let bytes := specEncode links
      some (.ok (⟨specHash bytes, bytes.length + sumSizes links⟩, bytes))
    else
      none

/-! ## Path tracker (`update_full_path`) -/

/-- `full_path.bytes().rposition(|ch| ch == b'/')`: index of the last slash. -/
def rpositionSlash : List Char → Option Nat
  | [] => none
  | c :: rest =>
    match rpositionSlash rest with
    | some i => some (i + 1)
    | none => if c = '/' then some 0 else none

/-- The `while *old_depth >= depth && *old_depth > 0` truncation loop of
`update_full_path`.  Returns `none` for the `todo!` panic (no slash left while
the depth must still decrease); the `Bool` records the early `return` of the
suffix-matching optimization. -/
def truncLoop (name : Option (List Char)) (depth : Nat) :
    List Char → Nat → Option (List Char × Nat × Bool)
  | fp, 0 => some (fp, 0, false)
  | fp, od + 1 =>
    if depth ≤ od + 1 then
      match rpositionSlash fp with
      | none => none
      | some slash_at =>
        if od + 1 = depth ∧ some (fp.drop (slash_at + 1)) = name then
          some (fp, od + 1, true)
        else
          truncLoop name depth (fp.take slash_at) od
    else
      some (fp, od + 1, false)

/-- The trailing part of `update_full_path`: append the separator and name,
then the `assert_eq!(*old_depth, depth)` (modelled as returning `none` when it
fails, i.e. when the call panics rather than returning normally). -/
def updateAppend (fp : List Char) (od : Nat) (name : Option (List Char)) (depth : Nat) :
    Option (List Char × Nat) :=
  let r : List Char × Nat :=
    match name with
    | some n => (fp ++ (if fp.isEmpty then [] else ['/']) ++ n, od + 1)
    | none => (fp, od)
  if r.2 = depth then some r else none

/-- `update_full_path((full_path, old_depth), name, depth)`.  `none` models a
panic (the `todo!` or the final `assert_eq!`); `some (fp, od)` is the updated
path buffer and tracked depth on normal return. -/
def update_full_path (fp : List Char) (od : Nat) (name : Option (List Char)) (depth : Nat) :
    Option (List Char × Nat) :=
  if depth < 2 then
    updateAppend [] 0 name depth
  else
    match truncLoop name depth fp od with
    | none => none
    | some (fp1, od1, early) =>
      if early then some (fp1, od1) else updateAppend fp1 od1 name depth

/-! ## Traversal frames and leaf storage -/

mutual
/-- The stack frames of the visit (`Visited`). -/
inductive Visited where
  | descentRoot (node : DirBuilder)
  | descent (node : DirBuilder) (name : String) (depth : Nat) (index : Nat)
  | post (parent_id : Nat) (depth : Nat) (name : String) (index : Nat) (leaves : LeafStorage)
  | postRoot (leaves : LeafStorage)

/-- `LeafStorage`: the link list held directly, or a key into `persisted_cids`. -/
inductive LeafStorage where
  | direct (leaves : Leaves)
  | stashed (id : Nat)
end

/-! ## The deferred stash (`persisted_cids : HashMap<u64, Leaves>`)

The hash map is only ever used through keyed operations (`insert`, `remove`,
`get_mut`); it is modelled as an association list. -/

abbrev Stash := List (Nat × Leaves)

/-- Keyed lookup in the stash. -/
def stashLookup (id : Nat) : Stash → Option Leaves
  | [] => none
  | (k, v) :: rest => if k = id then some v else stashLookup id rest

/-- Drop every binding of `id`. -/
def eraseKey (id : Nat) (st : Stash) : Stash :=
  st.filter (fun p => p.1 ≠ id)

/-- `HashMap::insert` (replacing any previous binding of the key). -/
def stashInsert (id : Nat) (v : Leaves) (st : Stash) : Stash :=
  (id, v) :: eraseKey id st

/-- In-place replacement of the value bound to `id` (the effect of writing
through `get_mut`). -/
def stashUpdate (id : Nat) (v : Leaves) (st : Stash) : Stash :=
  st.map (fun p => if p.1 = id then (id, v) else p)

/-- `LeafStorage::into_inner`: take the leaves, removing the stash entry in the
stashed case; `none` models the `expect` panic when the entry is missing. -/
def LeafStorage.into_inner : LeafStorage → Stash → Option (Leaves × Stash)
  | .direct leaves, st => some (leaves, st)
  | .stashed id, st =>
    match stashLookup id st with
    | none => none
    | some v => some (v, eraseKey id st)

/-- Writing a child's finished link into the parent's list at `index`:
`none` models the out-of-bounds panic and the `assert!(cell.is_none())`. -/
def setSlot (l : Leaves) (i : Nat) (leaf : NamedLeaf) : Option Leaves :=
  match l[i]? with
  | none => none
  | some (some _) => none
  | some none => some (l.set i (some leaf))

/-! ## Partitioner (`partition_children_leaves`) -/

/-- The enumerated loop body of `partition_children_leaves`: children are
consumed in order with positional index `i`; a directory child contributes a
`none` hole and a descend frame, a leaf child a filled slot. -/
def partitionGo (depth : Nat) (i : Nat) : EntryList → Leaves × List Visited
  | .nil => ([], [])
  | .cons k (.directory node) rest =>
    let r := partitionGo depth (i + 1) rest
    (none :: r.1, .descent node k (depth + 1) i :: r.2)
  | .cons k (.leaf link total_size) rest =>
    let r := partitionGo depth (i + 1) rest
    (some ⟨k, link, total_size⟩ :: r.1, r.2)

/-- `partition_children_leaves(depth, it, children)`. -/
def partition_children_leaves (depth : Nat) (it : EntryList) : Leaves × List Visited :=
  partitionGo depth 0 it

/-! ## Iterator state and outputs -/

/-- The `PostOrderIterator` state.  `reused_children` is omitted: it is a
drained allocation-reuse buffer, always empty between loop iterations. -/
structure PostOrderIterator where
  full_path : List Char
  old_depth : Nat
  block_buffer : List Nat
  pending : List Visited
  persisted_cids : Stash
  cid : Option Cid
  total_size : Nat
  opts : TreeOptions

/-- One output record (`TreeNode` / `OwnedTreeNode`: both report the same
field values, the borrowed form merely aliases the engine's buffers). -/
structure TreeNode where
  path : List Char
  cid : Cid
  total_size : Nat
  block : List Nat
deriving DecidableEq, Repr

instance {ε α : Type} [DecidableEq ε] [DecidableEq α] : DecidableEq (Except ε α) := fun x y =>
  match x, y with
  | .ok a, .ok b =>
    if h : a = b then isTrue (by rw [h]) else isFalse (by intro hh; cases hh; exact h rfl)
  | .error a, .error b =>
    if h : a = b then isTrue (by rw [h]) else isFalse (by intro hh; cases hh; exact h rfl)
  | .ok _, .error _ => isFalse (by intro hh; cases hh)
  | .error _, .ok _ => isFalse (by intro hh; cases hh)

/-- The observable outcome of one pull of the iterator.  `exhausted` is Rust's
`None`, `fatal` models a panic aborting the process. -/
inductive PullResult where
  | yield (t : TreeNode)
  | failed (e : TreeConstructionFailed)
  | exhausted
  | fatal
deriving DecidableEq, Repr

/-- `PostOrderIterator::new(root, opts, longest_path)`; the path-length hint
only sizes the buffer and has no observable effect. -/
def PostOrderIterator.new (root : DirBuilder) (opts : TreeOptions)
    (_longest_path : Nat) : PostOrderIterator :=
  { full_path := []
    old_depth := 0
    block_buffer := []
    pending := [.descentRoot root]
    persisted_cids := []
    cid := none
    total_size := 0
    opts := opts }

/-! ## Termination measure for the pull loop -/

mutual
/-- Number of directory nodes in a subtree (at least 1). -/
def nodeSize : DirBuilder → Nat
  | .mk _ _ nodes => 1 + entryListSize nodes

/-- Total directory-node count below an ordered children list. -/
def entryListSize : EntryList → Nat
  | .nil => 0
  | .cons _ (.directory n) rest => nodeSize n + entryListSize rest
  | .cons _ (.leaf _ _) rest => entryListSize rest
end

/-- Weight of one pending frame: descents weigh twice their subtree, posts 1. -/
def visitedWeight : Visited → Nat
  | .descentRoot n => 2 * nodeSize n
  | .descent n _ _ _ => 2 * nodeSize n
  | .post _ _ _ _ _ => 1
  | .postRoot _ => 1

/-- Measure of the pending stack, strictly decreasing along the pull loop. -/
def pendingMeasure (l : List Visited) : Nat :=
  (l.map visitedWeight).sum

/-! ## One iteration of the `while let Some(visited) = self.pending.pop()` loop -/

/-- Result of processing one popped frame: either loop on (`more`) or return
to the caller (`ret`). -/
inductive StepRes where
  | more (s : PostOrderIterator)
  | ret (r : PullResult) (s : PostOrderIterator)

/-- Processing of one popped frame of `next_borrowed` (the loop body):
path update first, then the per-frame work.  On a panic (`fatal`) the
post-state is unobservable in Rust; the pre-state is returned. -/
def step (s : PostOrderIterator) (visited : Visited) (rest : List Visited) : StepRes :=
  let nd : Option (List Char) × Nat :=
    match visited with
    | .descentRoot _ => (none, 0)
    | .descent _ n d _ => (some n.data, d)
    | .post _ d n _ _ => (some n.data, d)
    | .postRoot _ => (none, 0)
  match update_full_path s.full_path s.old_depth nd.1 nd.2 with
  | none => .ret .fatal s
  | some fpod =>
    let s0 := { s with full_path := fpod.1, old_depth := fpod.2, pending := rest }
    match visited with
    | .descentRoot node =>
      match node with
      | .mk _ nid nodes =>
        let r := partition_children_leaves 0 nodes
        if r.2.isEmpty then
          .more { s0 with pending := .postRoot (.direct r.1) :: rest }
        else
          .more { s0 with
                  persisted_cids := stashInsert nid r.1 s0.persisted_cids
                  pending := r.2.reverse ++ .postRoot (.stashed nid) :: rest }
    | .descent node nm depth index =>
      match node with
      | .mk parentOpt nid nodes =>
        let r := partition_children_leaves depth nodes
        match parentOpt with
        | none => .ret .fatal s
        | some parent_id =>
          if r.2.isEmpty then
            .more { s0 with pending := .post parent_id depth nm index (.direct r.1) :: rest }
          else
            .more { s0 with
                    persisted_cids := stashInsert nid r.1 s0.persisted_cids
                    pending := r.2.reverse ++
                      .post parent_id depth nm index (.stashed nid) :: rest }
    | .post parent_id _depth nm index storage =>
      match storage.into_inner s0.persisted_cids with
      | none => .ret .fatal s
      | some lst =>
        let s1 := { s0 with persisted_cids := lst.2 }
        match render_directory lst.1 s1.opts.block_size_limit with
        | none => .ret .fatal s
        | some (.error e) => .ret (.failed e) s1
        | some (.ok lb) =>
          let s2 := { s1 with
                      cid := some lb.1.link
                      total_size := lb.1.total_size
                      block_buffer := lb.2 }
          match stashLookup parent_id s2.persisted_cids with
          | none => .ret .fatal s
          | some vec =>
            match setSlot vec index ⟨nm, lb.1.link, lb.1.total_size⟩ with
            | none => .ret .fatal s
            | some vec2 =>
              let s3 := { s2 with persisted_cids := stashUpdate parent_id vec2 s2.persisted_cids }
              .ret (.yield ⟨s3.full_path, lb.1.link, lb.1.total_size, lb.2⟩) s3
    | .postRoot storage =>
      match storage.into_inner s0.persisted_cids with
      | none => .ret .fatal s
      | some lst =>
        let s1 := { s0 with persisted_cids := lst.2 }
        if s1.opts.wrap_with_directory then
          match render_directory lst.1 s1.opts.block_size_limit with
          | none => .ret .fatal s
          | some (.error e) => .ret (.failed e) s1
          | some (.ok lb) =>
            let s2 := { s1 with
                        cid := some lb.1.link
                        total_size := lb.1.total_size
                        block_buffer := lb.2 }
            .ret (.yield ⟨s2.full_path, lb.1.link, lb.1.total_size, lb.2⟩) s2
        else
          .ret .exhausted s1

/-- The weights of the descend frames produced by the partitioner sum to twice
the directory-node count below the children list. -/
theorem partitionGo_weight (depth i : Nat) (el : EntryList) :
    (((partitionGo depth i el).2.map visitedWeight).sum) = 2 * entryListSize el := by
  match el with
  | .nil => simp [partitionGo, entryListSize]
  | .cons k (.directory n) rest =>
    have ih := partitionGo_weight depth (i + 1) rest
    simp [partitionGo, entryListSize, visitedWeight, ih, Nat.mul_add]
  | .cons k (.leaf c t) rest =>
    have ih := partitionGo_weight depth (i + 1) rest
    simp [partitionGo, entryListSize, ih]

theorem pendingMeasure_append (a b : List Visited) :
    pendingMeasure (a ++ b) = pendingMeasure a + pendingMeasure b := by
  simp [pendingMeasure]

theorem pendingMeasure_reverse (a : List Visited) :
    pendingMeasure a.reverse = pendingMeasure a := by
  simp only [pendingMeasure, List.map_reverse]
  exact List.sum_reverse _

/-- Whenever the loop body continues, the pending measure strictly decreases. -/
theorem step_more_measure {s : PostOrderIterator} {v : Visited} {rest : List Visited}
    {s1 : PostOrderIterator} (h : step s v rest = .more s1) :
    pendingMeasure s1.pending < pendingMeasure (v :: rest) := by
  unfold step at h
  cases v with
  | descentRoot node =>
    cases node with
    | mk p nid nodes =>
      simp only [] at h
      split at h
      · exact absurd h (by simp)
      · split at h
        · cases h
          simp [pendingMeasure, visitedWeight, nodeSize]
          omega
        · cases h
          simp only [pendingMeasure, List.map_cons, List.sum_cons, List.map_append,
            List.sum_append, List.map_reverse, List.sum_reverse]
          have hw := partitionGo_weight 0 0 nodes
          simp only [partition_children_leaves] at *
          simp [visitedWeight, nodeSize]
          omega
  | descent node nm depth index =>
    cases node with
    | mk p nid nodes =>
      simp only [] at h
      split at h
      · exact absurd h (by simp)
      · cases p with
        | none => exact absurd h (by simp)
        | some parent_id =>
          simp only [] at h
          split at h
          · cases h
            simp [pendingMeasure, visitedWeight, nodeSize]
            omega
          · cases h
            simp only [pendingMeasure, List.map_cons, List.sum_cons, List.map_append,
              List.sum_append, List.map_reverse, List.sum_reverse]
            have hw := partitionGo_weight depth 0 nodes
            simp only [partition_children_leaves] at *
            simp [visitedWeight, nodeSize]
            omega
  | post p d nm i st =>
    simp only [] at h
    split at h
    · exact absurd h (by simp)
    · split at h <;> first
        | exact absurd h (by simp)
        | (split at h <;> first
            | exact absurd h (by simp)
            | (split at h <;> first
                | exact absurd h (by simp)
                | (split at h <;> exact absurd h (by simp))))
  | postRoot st =>
    simp only [] at h
    split at h
    · exact absurd h (by simp)
    · split at h <;> first
        | exact absurd h (by simp)
        | (split at h <;> first
            | exact absurd h (by simp)
            | (split at h <;> exact absurd h (by simp)))

/-- `PostOrderIterator::next_borrowed`: pop frames until a record, an error,
exhaustion, or a panic. -/
def next_borrowed (s : PostOrderIterator) : PullResult × PostOrderIterator :=
  match h : s.pending with
  | [] => (.exhausted, s)
  | v :: rest =>
    match h2 : step s v rest with
    | .more s1 => next_borrowed s1
    | .ret r s1 => (r, s1)
termination_by pendingMeasure s.pending
decreasing_by
  rw [h]
  exact step_more_measure h2

/-! ## Path segments

The full path of a node at depth `d` is the `'/'`-join of its `d` ancestor
names (excluding the root).  These definitions only serve the statements and
proofs; the machine itself works on the raw character buffer. -/

/-- A usable path segment: a nonempty name without a separator. -/
def segOk (s : List Char) : Prop := s ≠ [] ∧ '/' ∉ s

/-- Join segments with `'/'`. -/
def joinSegs : List (List Char) → List Char
  | [] => []
  | [s] => s
  | s :: rest => s ++ '/' :: joinSegs rest

/-! ## Well-formedness of the input tree

What the external builder guarantees (spec section 6): every node has a
unique id, every non-root node's `parent_id` is its parent's id, and names
are usable path segments. -/

mutual
/-- Structural well-formedness below one node: child names are usable path
segments and each subdirectory's `parent_id` points back at this node. -/
def wfNode : DirBuilder → Bool
  | .mk _ i nodes => wfChildren i nodes

/-- Structural well-formedness of a children list under parent id `pid`. -/
def wfChildren (pid : Nat) : EntryList → Bool
  | .nil => true
  | .cons k (.directory n) rest =>
    decide (k.data ≠ [] ∧ '/' ∉ k.data) &&
      (n.parent_id == some pid) && wfNode n && wfChildren pid rest
  | .cons k (.leaf _ _) rest =>
    decide (k.data ≠ [] ∧ '/' ∉ k.data) && wfChildren pid rest
end

mutual
/-- All directory-node ids in a subtree (the node itself first). -/
def subtreeIds : DirBuilder → List Nat
  | .mk _ i nodes => i :: childIds nodes

/-- All directory-node ids below a children list. -/
def childIds : EntryList → List Nat
  | .nil => []
  | .cons _ (.directory n) rest => subtreeIds n ++ childIds rest
  | .cons _ (.leaf _ _) rest => childIds rest
end

/-- Well-formed input tree: structurally well-formed and all ids distinct. -/
def WF (n : DirBuilder) : Prop := wfNode n = true ∧ (subtreeIds n).Nodup

/-! ## Reference (recursive) rendering

The recursive description of what the traversal computes, used to state the
simulation theorem: a directory's link is the rendered block of its fully
resolved children, outputs appear in post order with sibling subtrees in
reverse child order. -/

mutual
/-- The `Leaf` (cid and cumulative size) a directory resolves to. -/
def refLink : DirBuilder → Leaf
  | .mk _ _ nodes =>
    ⟨specHash (specEncode (refLeaves nodes)),
      (specEncode (refLeaves nodes)).length + sumSizes (refLeaves nodes)⟩

/-- The fully resolved link list of a children list. -/
def refLeaves : EntryList → Leaves
  | .nil => []
  | .cons k (.directory c) rest =>
    some ⟨k, (refLink c).link, (refLink c).total_size⟩ :: refLeaves rest
  | .cons k (.leaf l t) rest => some ⟨k, l, t⟩ :: refLeaves rest
end

/-- The output record of the directory anchored at path segments `segs`. -/
def refRecord (n : DirBuilder) (segs : List (List Char)) : TreeNode :=
  ⟨joinSegs segs, (refLink n).link, (refLink n).total_size, specEncode (refLeaves n.nodes)⟩

mutual
/-- All records of a subtree in emission order (descendants first, the node's
own record last). -/
def refOutputs : DirBuilder → List (List Char) → List TreeNode
  | .mk p i nodes, segs =>
    refChildrenOut nodes segs ++ [refRecord (.mk p i nodes) segs]

/-- Records of the subtrees below a children list, later children first
(descend frames are pushed in encounter order and popped in reverse). -/
def refChildrenOut : EntryList → List (List Char) → List TreeNode
  | .nil, _ => []
  | .cons k (.directory c) rest, segs =>
    refChildrenOut rest segs ++ refOutputs c (segs ++ [k.data])
  | .cons _ (.leaf _ _) rest, segs => refChildrenOut rest segs
end

/-- The complete expected output of one traversal: all subtree records, then
the root's own record iff `wrap_with_directory`. -/
def refRun (t : DirBuilder) (opts : TreeOptions) : List TreeNode :=
  refChildrenOut t.nodes [] ++ (if opts.wrap_with_directory then [refRecord t []] else [])

/-- The write-backs of the finished subdirectory links into a parent's link
list, in encounter order starting at index `i`. -/
def fillsApplied : EntryList → Nat → Leaves → Leaves
  | .nil, _, L => L
  | .cons k (.directory c) rest, i, L =>
    fillsApplied rest (i + 1) (L.set i (some ⟨k, (refLink c).link, (refLink c).total_size⟩))
  | .cons _ (.leaf _ _) rest, i, L => fillsApplied rest (i + 1) L

/-- The first subdirectory child of a children list, if any (it is descended
into last, so its name is the one left in the path buffer afterwards). -/
def firstDir : EntryList → Option (String × DirBuilder)
  | .nil => none
  | .cons k (.directory c) _ => some (k, c)
  | .cons _ (.leaf _ _) rest => firstDir rest

/-- Every unresolved (subdirectory) slot from child position `i` on is still a
hole in the link list `L`. -/
def slotsNone : EntryList → Nat → Leaves → Prop
  | .nil, _, _ => True
  | .cons _ (.directory _) rest, i, L => L[i]? = some none ∧ slotsNone rest (i + 1) L
  | .cons _ (.leaf _ _) rest, i, L => slotsNone rest (i + 1) L

/-! ## Stash-consistency bookkeeping (for the traversal invariant) -/

/-- The stash key a frame still references as `LeafStorage::Stashed`. -/
def frameStashRef : Visited → Option Nat
  | .post _ _ _ _ (.stashed id) => some id
  | .postRoot (.stashed id) => some id
  | _ => none

/-- The parent slot `(parent_id, index)` a frame will eventually fill. -/
def framePair : Visited → Option (Nat × Nat)
  | .descent n _ _ i =>
    match n.parent_id with
    | some p => some (p, i)
    | none => none
  | .post p _ _ i _ => some (p, i)
  | _ => none

/-- The subtree ids still carried by an unexpanded descend frame. -/
def frameIds : Visited → List Nat
  | .descentRoot n => subtreeIds n
  | .descent n _ _ _ => subtreeIds n
  | _ => []

/-- Frames that handle the root (they may only sit at the bottom of the stack). -/
def isRootFrame : Visited → Prop
  | .descentRoot _ => True
  | .postRoot _ => True
  | _ => False

/-- The state shape left behind after a subtree (or a run of sibling subtrees)
has been fully processed: only the pending suffix, the parent stash entry, the
path buffer and the last-rendered caches have changed. -/
def simState (s : PostOrderIterator) (rest : List Visited) (pid : Nat) (L : Leaves)
    (stash0 : Stash) (P2 : List (List Char)) (c2 : Option Cid) (t2 : Nat)
    (b2 : List Nat) : PostOrderIterator :=
  { s with
    pending := rest
    persisted_cids := (pid, L) :: stash0
    full_path := joinSegs P2
    old_depth := P2.length
    cid := c2
    total_size := t2
    block_buffer := b2 }

/-- Prepend records to a pull-sequence summary. -/
def prependOut (l : List (Except TreeConstructionFailed TreeNode))
    (p : List (Except TreeConstructionFailed TreeNode) × Bool) :
    List (Except TreeConstructionFailed TreeNode) × Bool :=
  (l ++ p.1, p.2)

mutual
/-- Entry-counting subtree size (every entry weighs at least one). -/
def tSize : DirBuilder → Nat
  | .mk _ _ nodes => 1 + tList nodes

/-- Entry-counting size of a children list. -/
def tList : EntryList → Nat
  | .nil => 0
  | .cons _ (.directory n) rest => tSize n + 1 + tList rest
  | .cons _ (.leaf _ _) rest => 1 + tList rest
end

/-- States reachable by pulling from `s0`. -/
inductive Reaches (s0 : PostOrderIterator) : PostOrderIterator → Prop where
  | refl : Reaches s0 s0
  | next {s : PostOrderIterator} : Reaches s0 s → Reaches s0 (next_borrowed s).2

/-! ## Tree membership and record ordering (for the claim statements) -/

/-- `C` is the subdirectory child of `D` named `k` (at some position of the
ordered children). -/
def DirChild (D : DirBuilder) (k : String) (C : DirBuilder) : Prop :=
  ∃ pre post, D.nodes = EntryList.append pre (.cons k (.directory C) post)

/-- `C1` (named `k1`) appears strictly before `C2` (named `k2`) among the
ordered subdirectory children of `D`. -/
def DirChildPair (D : DirBuilder) (k1 : String) (C1 : DirBuilder)
    (k2 : String) (C2 : DirBuilder) : Prop :=
  ∃ pre mid post, D.nodes = EntryList.append pre
    (.cons k1 (.directory C1) (EntryList.append mid (.cons k2 (.directory C2) post)))

/-- `D` is the directory of the input tree `t` anchored at path segments `segs`. -/
inductive SubtreeAt (t : DirBuilder) : List (List Char) → DirBuilder → Prop where
  | refl : SubtreeAt t [] t
  | child {segs : List (List Char)} {D : DirBuilder} {k : String} {C : DirBuilder} :
      SubtreeAt t segs D → DirChild D k C → SubtreeAt t (segs ++ [k.data]) C

/-- `x` appears strictly before `y` in the list `L`. -/
def appearsBefore {α : Type} (x y : α) (L : List α) : Prop :=
  ∃ l1 l2 l3, L = l1 ++ x :: (l2 ++ y :: l3)

/-! ## Concrete example trees for the claims -/

/-- The empty subdirectory `a` of `cexTreeErr`. -/
def cexTreeErrA : DirBuilder := .mk (some 0) 1 .nil

/-- The subdirectory `b` of `cexTreeErr` (holds one leaf, so its block is
larger than the empty block). -/
def cexTreeErrB : DirBuilder := .mk (some 0) 2 (.cons "x" (.leaf 5 7) .nil)

/-- `root/{a: empty dir, b: dir {x: leaf}}` — with `block_size_limit = 1` the
subtree `b` is too large but `a` still renders after the error. -/
def cexTreeErr : DirBuilder :=
  .mk none 0 (.cons "a" (.directory cexTreeErrA)
    (.cons "b" (.directory cexTreeErrB) .nil))

/-- The subdirectory `a` of `tree7`. -/
def tree7a : DirBuilder := .mk (some 0) 1 (.cons "x" (.leaf 9 4) .nil)

/-- `root/{a: dir {x: leaf}, b: leaf}` — the path-correctness example tree. -/
def tree7 : DirBuilder :=
  .mk none 0 (.cons "a" (.directory tree7a) (.cons "b" (.leaf 8 3) .nil))

/-- A state about to post-process a failed named directory: its list is
stashed under id 2, the parent's (id 0) single slot is still unfilled, and the
size limit 0 makes the render fail. -/
def errStashState : PostOrderIterator :=
  { full_path := ['b']
    old_depth := 1
    block_buffer := []
    pending := [.post 0 1 "c" 0 (.stashed 2)]
    persisted_cids := [(0, [none]), (2, [some ⟨"x", 5, 7⟩])]
    cid := none
    total_size := 0
    opts := ⟨some 0, true⟩ }

/-- `root/{f: leaf}` — with `block_size_limit = 0` the wrapping root block is
too large, so wrapping adds an error rather than a record. -/
def cexTreeRoot : DirBuilder :=
  .mk none 0 (.cons "f" (.leaf 2 3) .nil)

/-- A childless root — without wrapping its traversal is exhausted on the
very first pull. -/
def emptyRoot : DirBuilder := .mk none 0 .nil

/-- The records (successful outputs) of a pull sequence. -/
def okRecords (l : List (Except TreeConstructionFailed TreeNode)) : List TreeNode :=
  l.filterMap (fun r => match r with
    | .ok t => some t
    | .error _ => none)

/-! ## Traversal invariants -/

/-- The state a step outcome leaves the engine in. -/
def StepRes.state : StepRes → PostOrderIterator
  | .more s1 => s1
  | .ret _ s1 => s1

/-- The stash keys the pending frames still reference as stashed storage. -/
def pendRefs (l : List Visited) : List Nat := l.filterMap frameStashRef

/-- The node ids still carried by unexpanded descend frames. -/
def pendIds (l : List Visited) : List Nat := l.flatMap frameIds

/-- Root frames sit only at the bottom of the traversal stack. -/
def rootBottom (s : PostOrderIterator) : Prop :=
  ∀ v ∈ s.pending.dropLast, ¬ isRootFrame v

/-- The stash-consistency invariant: an id is a key of the deferred stash
exactly when some pending frame references it as stashed storage, and the
unexpanded subtree ids together with the stashed references are all
distinct. -/
def Inv (s : PostOrderIterator) : Prop :=
  (∀ id, (stashLookup id s.persisted_cids).isSome = true ↔ id ∈ pendRefs s.pending) ∧
  (pendIds s.pending ++ pendRefs s.pending).Nodup

/-- The stash keys a storage value references (none or exactly one). -/
def LeafStorage.refList : LeafStorage → List Nat
  | .direct _ => []
  | .stashed id => [id]

/-! ### Unfolding lemmas for `next_borrowed` -/

theorem next_borrowed_nil {s : PostOrderIterator} (h : s.pending = []) :
    next_borrowed s = (.exhausted, s) := by
  rw [next_borrowed]
  split
  · rfl
  · rename_i v rest hh
    rw [h] at hh
    cases hh

theorem next_borrowed_cons_more {s : PostOrderIterator} {v : Visited} {rest : List Visited}
    {s1 : PostOrderIterator} (h : s.pending = v :: rest) (h2 : step s v rest = .more s1) :
    next_borrowed s = next_borrowed s1 := by
  rw [next_borrowed]
  split
  · rename_i hh
    rw [h] at hh
    cases hh
  · rename_i v' rest' hh
    rw [h] at hh
    cases hh
    rw [h2]

theorem next_borrowed_cons_ret {s : PostOrderIterator} {v : Visited} {rest : List Visited}
    {r : PullResult} {s1 : PostOrderIterator} (h : s.pending = v :: rest)
    (h2 : step s v rest = .ret r s1) :
    next_borrowed s = (r, s1) := by
  rw [next_borrowed]
  split
  · rename_i hh
    rw [h] at hh
    cases hh
  · rename_i v' rest' hh
    rw [h] at hh
    cases hh
    rw [h2]

theorem visitedWeight_pos (v : Visited) : 0 < visitedWeight v := by
  cases v with
  | descentRoot n => cases n with
    | mk p i nodes => simp [visitedWeight, nodeSize]
  | descent n nm d i => cases n with
    | mk p j nodes => simp [visitedWeight, nodeSize]
  | post p d nm i st => simp [visitedWeight]
  | postRoot st => simp [visitedWeight]

/-- When the loop body returns anything but a panic, the remaining pending
stack is exactly the rest below the popped frame. -/
theorem step_ret_pending {s : PostOrderIterator} {v : Visited} {rest : List Visited}
    {r : PullResult} {s1 : PostOrderIterator} (h : step s v rest = .ret r s1)
    (hr : r ≠ .fatal) : s1.pending = rest := by
  unfold step at h
  cases v with
  | descentRoot node =>
    cases node with
    | mk p nid nodes =>
      simp only [] at h
      repeat' split at h
      all_goals (cases h <;> first | rfl | exact absurd rfl hr)
  | descent node nm depth index =>
    cases node with
    | mk p nid nodes =>
      simp only [] at h
      repeat' split at h
      all_goals (cases h <;> first | rfl | exact absurd rfl hr)
  | post p d nm i st =>
    simp only [] at h
    repeat' split at h
    all_goals (cases h <;> first | rfl | exact absurd rfl hr)
  | postRoot st =>
    simp only [] at h
    repeat' split at h
    all_goals (cases h <;> first | rfl | exact absurd rfl hr)

/-- A pull that produces a record or an error strictly shrinks the pending measure. -/
theorem next_measure_lt {s : PostOrderIterator} {r : PullResult} {s' : PostOrderIterator}
    (h : next_borrowed s = (r, s')) (h1 : r ≠ .exhausted) (h2 : r ≠ .fatal) :
    pendingMeasure s'.pending < pendingMeasure s.pending := by
  have main : ∀ n (s : PostOrderIterator) (r : PullResult) (s' : PostOrderIterator),
      pendingMeasure s.pending < n → next_borrowed s = (r, s') → r ≠ .exhausted → r ≠ .fatal →
      pendingMeasure s'.pending < pendingMeasure s.pending := by
    intro n
    induction n with
    | zero => intro s r s' hn; omega
    | succ n ih =>
      intro s r s' hn hh h1 h2
      rcases hp : s.pending with _ | ⟨v, rest⟩
      · rw [next_borrowed_nil hp] at hh
        cases hh
        exact absurd rfl h1
      · rcases hs : step s v rest with ⟨s1⟩ | ⟨r1, s1⟩
        · rw [next_borrowed_cons_more hp hs] at hh
          have hlt : pendingMeasure s1.pending < pendingMeasure (v :: rest) :=
            step_more_measure hs
          rw [hp] at hn
          have := ih s1 r s' (by omega) hh h1 h2
          omega
        · rw [next_borrowed_cons_ret hp hs] at hh
          cases hh
          have := step_ret_pending hs h2
          rw [this]
          have := visitedWeight_pos v
          simp [pendingMeasure]
          omega
  exact main (pendingMeasure s.pending + 1) s r s' (Nat.lt_succ_self _) h h1 h2

/-- The complete output sequence of the iterator from a given state: the list
of pulled records/errors, and whether the run ended in a panic rather than
exhaustion. -/
def runAll (s : PostOrderIterator) : List (Except TreeConstructionFailed TreeNode) × Bool :=
  match h : next_borrowed s with
  | (.yield t, s') =>
    let r := runAll s'
    (.ok t :: r.1, r.2)
  | (.failed e, s') =>
    let r := runAll s'
    (.error e :: r.1, r.2)
  | (.exhausted, _) => ([], false)
  | (.fatal, _) => ([], true)
termination_by pendingMeasure s.pending
decreasing_by
  · exact next_measure_lt h (by simp) (by simp)
  · exact next_measure_lt h (by simp) (by simp)

theorem runAll_yield {s : PostOrderIterator} {t : TreeNode} {s' : PostOrderIterator}
    (h : next_borrowed s = (.yield t, s')) :
    runAll s = (.ok t :: (runAll s').1, (runAll s').2) := by
  rw [runAll]
  split <;> rename_i hh <;> rw [h] at hh <;> cases hh
  all_goals rfl

theorem runAll_failed {s : PostOrderIterator} {e : TreeConstructionFailed}
    {s' : PostOrderIterator} (h : next_borrowed s = (.failed e, s')) :
    runAll s = (.error e :: (runAll s').1, (runAll s').2) := by
  rw [runAll]
  split <;> rename_i hh <;> rw [h] at hh <;> cases hh
  all_goals rfl

theorem runAll_exhausted {s : PostOrderIterator} {s' : PostOrderIterator}
    (h : next_borrowed s = (.exhausted, s')) :
    runAll s = ([], false) := by
  rw [runAll]
  split <;> rename_i hh <;> rw [h] at hh <;> cases hh
  all_goals rfl

theorem runAll_fatal {s : PostOrderIterator} {s' : PostOrderIterator}
    (h : next_borrowed s = (.fatal, s')) :
    runAll s = ([], true) := by
  rw [runAll]
  split <;> rename_i hh <;> rw [h] at hh <;> cases hh
  all_goals rfl

/-! ### Structural fuel evaluators (for computing concrete runs)

`next_borrowed` and `runAll` are defined by well-founded recursion, mirroring
the source's loop; the following structurally recursive evaluators are proved
equal to them (given enough fuel) and let concrete runs be evaluated by the
kernel. -/

/-- Fuelled version of the pull loop. -/
def nextFuel : Nat → PostOrderIterator → PullResult × PostOrderIterator
  | 0, s => (.fatal, s)
  | n + 1, s =>
    match s.pending with
    | [] => (.exhausted, s)
    | v :: rest =>
      match step s v rest with
      | .more s1 => nextFuel n s1
      | .ret r s1 => (r, s1)

theorem nextFuel_eq (n : Nat) (s : PostOrderIterator)
    (h : pendingMeasure s.pending < n) : nextFuel n s = next_borrowed s := by
  induction n generalizing s with
  | zero => omega
  | succ n ih =>
    rcases hp : s.pending with _ | ⟨v, rest⟩
    · rw [next_borrowed_nil hp]
      simp [nextFuel, hp]
    · rcases hs : step s v rest with ⟨s1⟩ | ⟨r1, s1⟩
      · rw [next_borrowed_cons_more hp hs]
        have hlt : pendingMeasure s1.pending < pendingMeasure (v :: rest) :=
          step_more_measure hs
        rw [hp] at h
        simp only [nextFuel, hp, hs]
        exact ih s1 (by omega)
      · rw [next_borrowed_cons_ret hp hs]
        simp [nextFuel, hp, hs]

/-- Fuelled version of `runAll` (fuel bounds the number of pulls). -/
def runAllFuel : Nat → PostOrderIterator → List (Except TreeConstructionFailed TreeNode) × Bool
  | 0, _ => ([], true)
  | n + 1, s =>
    match nextFuel (pendingMeasure s.pending + 1) s with
    | (.yield t, s') =>
      let r := runAllFuel n s'
      (.ok t :: r.1, r.2)
    | (.failed e, s') =>
      let r := runAllFuel n s'
      (.error e :: r.1, r.2)
    | (.exhausted, _) => ([], false)
    | (.fatal, _) => ([], true)

theorem runAllFuel_eq (n : Nat) (s : PostOrderIterator)
    (h : pendingMeasure s.pending < n) : runAllFuel n s = runAll s := by
  induction n generalizing s with
  | zero => omega
  | succ n ih =>
    have hnx : nextFuel (pendingMeasure s.pending + 1) s = next_borrowed s :=
      nextFuel_eq _ _ (Nat.lt_succ_self _)
    rcases hr : next_borrowed s with ⟨r, s'⟩
    cases r with
    | yield t =>
      have hm : pendingMeasure s'.pending < pendingMeasure s.pending :=
        next_measure_lt hr (by simp) (by simp)
      rw [runAll_yield hr]
      simp only [runAllFuel, hnx, hr]
      rw [ih s' (by omega)]
    | failed e =>
      have hm : pendingMeasure s'.pending < pendingMeasure s.pending :=
        next_measure_lt hr (by simp) (by simp)
      rw [runAll_failed hr]
      simp only [runAllFuel, hnx, hr]
      rw [ih s' (by omega)]
    | exhausted =>
      rw [runAll_exhausted hr]
      simp [runAllFuel, hnx, hr]
    | fatal =>
      rw [runAll_fatal hr]
      simp [runAllFuel, hnx, hr]

/-- Pulls agree from two states whose next pull agrees entirely. -/
theorem runAll_eq_of_next_eq {a b : PostOrderIterator}
    (h : next_borrowed a = next_borrowed b) : runAll a = runAll b := by
  rcases hr : next_borrowed a with ⟨r, s'⟩
  have hb : next_borrowed b = (r, s') := by rw [← h, hr]
  cases r with
  | yield t => rw [runAll_yield hr, runAll_yield hb]
  | failed e => rw [runAll_failed hr, runAll_failed hb]
  | exhausted => rw [runAll_exhausted hr, runAll_exhausted hb]
  | fatal => rw [runAll_fatal hr, runAll_fatal hb]

/-! ### Association-list lemmas for the stash -/

theorem stashLookup_cons_self (a : Nat) (b : Leaves) (rest : Stash) :
    stashLookup a ((a, b) :: rest) = some b := by
  simp [stashLookup]

theorem stashLookup_cons_ne {a k : Nat} (h : a ≠ k) (b : Leaves) (rest : Stash) :
    stashLookup k ((a, b) :: rest) = stashLookup k rest := by
  simp [stashLookup, h]

theorem eraseKey_cons_self (id : Nat) (b : Leaves) (rest : Stash) :
    eraseKey id ((id, b) :: rest) = eraseKey id rest := by
  simp [eraseKey]

theorem eraseKey_cons_ne {a id : Nat} (h : a ≠ id) (b : Leaves) (rest : Stash) :
    eraseKey id ((a, b) :: rest) = (a, b) :: eraseKey id rest := by
  simp [eraseKey, h]

theorem stashUpdate_cons_self (id : Nat) (v b : Leaves) (rest : Stash) :
    stashUpdate id v ((id, b) :: rest) = (id, v) :: stashUpdate id v rest := by
  simp [stashUpdate]

theorem stashUpdate_cons_ne {a id : Nat} (h : a ≠ id) (v b : Leaves) (rest : Stash) :
    stashUpdate id v ((a, b) :: rest) = (a, b) :: stashUpdate id v rest := by
  simp [stashUpdate, h]

theorem stashLookup_eraseKey_self (id : Nat) (st : Stash) :
    stashLookup id (eraseKey id st) = none := by
  induction st with
  | nil => rfl
  | cons p rest ih =>
    obtain ⟨a, b⟩ := p
    by_cases h : a = id
    · subst h
      rw [eraseKey_cons_self]
      exact ih
    · rw [eraseKey_cons_ne h, stashLookup_cons_ne h]
      exact ih

theorem stashLookup_eraseKey_ne {k id : Nat} (h : k ≠ id) (st : Stash) :
    stashLookup k (eraseKey id st) = stashLookup k st := by
  induction st with
  | nil => rfl
  | cons p rest ih =>
    obtain ⟨a, b⟩ := p
    by_cases h1 : a = id
    · subst h1
      rw [eraseKey_cons_self, stashLookup_cons_ne (by omega), ih]
    · by_cases h2 : a = k
      · subst h2
        rw [eraseKey_cons_ne h1, stashLookup_cons_self, stashLookup_cons_self]
      · rw [eraseKey_cons_ne h1, stashLookup_cons_ne h2, stashLookup_cons_ne h2, ih]

theorem eraseKey_of_lookup_none {id : Nat} {st : Stash}
    (h : stashLookup id st = none) : eraseKey id st = st := by
  induction st with
  | nil => rfl
  | cons p rest ih =>
    obtain ⟨a, b⟩ := p
    by_cases h1 : a = id
    · subst h1
      rw [stashLookup_cons_self] at h
      cases h
    · rw [stashLookup_cons_ne h1] at h
      rw [eraseKey_cons_ne h1, ih h]

theorem stashLookup_stashInsert_self (id : Nat) (v : Leaves) (st : Stash) :
    stashLookup id (stashInsert id v st) = some v := by
  simp [stashInsert, stashLookup]

theorem stashLookup_stashInsert_ne {k id : Nat} (h : k ≠ id) (v : Leaves) (st : Stash) :
    stashLookup k (stashInsert id v st) = stashLookup k st := by
  simp only [stashInsert]
  rw [stashLookup_cons_ne (by omega), stashLookup_eraseKey_ne h]

theorem stashUpdate_of_lookup_none {id : Nat} {st : Stash}
    (h : stashLookup id st = none) (v : Leaves) : stashUpdate id v st = st := by
  induction st with
  | nil => rfl
  | cons p rest ih =>
    obtain ⟨a, b⟩ := p
    by_cases h1 : a = id
    · subst h1
      rw [stashLookup_cons_self] at h
      cases h
    · rw [stashLookup_cons_ne h1] at h
      rw [stashUpdate_cons_ne h1, ih h]

theorem stashUpdate_stashInsert_self (id : Nat) (v w : Leaves) (st : Stash) :
    stashUpdate id v (stashInsert id w st) = stashInsert id v st := by
  simp only [stashInsert]
  rw [stashUpdate_cons_self,
    stashUpdate_of_lookup_none (stashLookup_eraseKey_self id st) v]

theorem eraseKey_stashInsert_self (id : Nat) (v : Leaves) (st : Stash) :
    eraseKey id (stashInsert id v st) = eraseKey id st := by
  simp only [stashInsert]
  rw [eraseKey_cons_self, eraseKey_of_lookup_none (stashLookup_eraseKey_self id st)]

theorem stashLookup_stashUpdate_ne {k id : Nat} (h : k ≠ id) (v : Leaves) (st : Stash) :
    stashLookup k (stashUpdate id v st) = stashLookup k st := by
  induction st with
  | nil => rfl
  | cons p rest ih =>
    obtain ⟨a, b⟩ := p
    by_cases h1 : a = id
    · subst h1
      rw [stashUpdate_cons_self, stashLookup_cons_ne (by omega),
        stashLookup_cons_ne (by omega), ih]
    · by_cases h2 : a = k
      · subst h2
        rw [stashUpdate_cons_ne h1, stashLookup_cons_self, stashLookup_cons_self]
      · rw [stashUpdate_cons_ne h1, stashLookup_cons_ne h2, stashLookup_cons_ne h2, ih]

theorem stashLookup_stashUpdate_self {id : Nat} {st : Stash} {w : Leaves}
    (h : stashLookup id st = some w) (v : Leaves) :
    stashLookup id (stashUpdate id v st) = some v := by
  induction st with
  | nil => cases h
  | cons p rest ih =>
    obtain ⟨a, b⟩ := p
    by_cases h1 : a = id
    · subst h1
      rw [stashUpdate_cons_self, stashLookup_cons_self]
    · rw [stashLookup_cons_ne h1] at h
      rw [stashUpdate_cons_ne h1, stashLookup_cons_ne h1, ih h]

theorem setSlot_of_none {L : Leaves} {i : Nat} (h : L[i]? = some none) (v : NamedLeaf) :
    setSlot L i v = some (L.set i (some v)) := by
  simp [setSlot, h]

theorem stashUpdate_canonical {id : Nat} {st : Stash} (h : stashLookup id st = none)
    (v w : Leaves) : stashUpdate id v ((id, w) :: st) = (id, v) :: st := by
  rw [stashUpdate_cons_self, stashUpdate_of_lookup_none h]

/-! ### Path-segment lemmas -/

theorem joinSegs_append_last {P : List (List Char)} (h : P ≠ []) (x : List Char) :
    joinSegs (P ++ [x]) = joinSegs P ++ '/' :: x := by
  induction P with
  | nil => exact absurd rfl h
  | cons s rest ih =>
    cases rest with
    | nil => rfl
    | cons t rest' =>
      have ihh := ih (by simp)
      simp only [List.cons_append] at ihh ⊢
      simp only [joinSegs]
      rw [ihh]
      simp

theorem joinSegs_ne_nil {P : List (List Char)} (h : P ≠ [])
    (hs : ∀ s ∈ P, s ≠ []) : joinSegs P ≠ [] := by
  cases P with
  | nil => exact absurd rfl h
  | cons s rest =>
    cases rest with
    | nil =>
      simpa [joinSegs] using hs s (by simp)
    | cons t rest' =>
      simp [joinSegs]

theorem rpositionSlash_of_not_mem {s : List Char} (h : '/' ∉ s) :
    rpositionSlash s = none := by
  induction s with
  | nil => rfl
  | cons c rest ih =>
    simp only [List.mem_cons, not_or] at h
    simp [rpositionSlash, ih h.2, Ne.symm h.1]

theorem rpositionSlash_append {x : List Char} (hx : '/' ∉ x) (A : List Char) :
    rpositionSlash (A ++ '/' :: x) = some A.length := by
  induction A with
  | nil => simp [rpositionSlash, rpositionSlash_of_not_mem hx]
  | cons a A ih =>
    simp [rpositionSlash, ih]

theorem take_append_slash (A x : List Char) :
    (A ++ '/' :: x).take A.length = A := by
  simpa using List.take_left A ('/' :: x)

theorem drop_append_slash (A x : List Char) :
    (A ++ '/' :: x).drop (A.length + 1) = x := by
  have h1 : A ++ '/' :: x = (A ++ ['/']) ++ x := by simp
  have h2 : A.length + 1 = (A ++ ['/']).length := by simp
  rw [h1, h2, List.drop_left]

/-- Behaviour of the truncation loop on a well-formed joined path: either the
suffix-matching optimization fires (leaving the final path already correct) or
the loop truncates down to depth − 1 segments. -/
theorem truncLoop_join (name : List Char) (depth : Nat) (P : List (List Char))
    (h2 : 2 ≤ depth) (hlen : depth - 1 ≤ P.length)
    (hseg : ∀ s ∈ P, '/' ∉ s) (hname : '/' ∉ name) :
    truncLoop (some name) depth (joinSegs P) P.length
      = some (joinSegs (P.take (depth - 1) ++ [name]), depth, true) ∨
    truncLoop (some name) depth (joinSegs P) P.length
      = some (joinSegs (P.take (depth - 1)), depth - 1, false) := by
  induction P using List.reverseRecOn with
  | nil => simp at hlen; omega
  | append_singleton Q x ih =>
    have hlenP : (Q ++ [x]).length = Q.length + 1 := by simp
    rw [hlenP]
    by_cases hd : depth ≤ Q.length + 1
    · have hQpos : 1 ≤ Q.length := by omega
      have hQne : Q ≠ [] := by
        cases Q with
        | nil => simp at hQpos
        | cons a b => simp
      have hxs : '/' ∉ x := hseg x (by simp)
      rw [joinSegs_append_last hQne x]
      simp only [truncLoop, if_pos hd, rpositionSlash_append hxs,
        drop_append_slash, take_append_slash]
      by_cases hcond : Q.length + 1 = depth ∧ x = name
      · rw [if_pos (by exact ⟨hcond.1, by rw [hcond.2]⟩)]
        left
        rw [← joinSegs_append_last hQne x]
        have ht : (Q ++ [x]).take (depth - 1) = Q := by
          have : depth - 1 = Q.length := by omega
          rw [this]
          simpa using List.take_left Q [x]
        rw [ht, hcond.2, hcond.1]
      · have hcond' : ¬ (Q.length + 1 = depth ∧ some x = some name) := by
          intro hh
          exact hcond ⟨hh.1, by injection hh.2⟩
        rw [if_neg hcond']
        have hlenQ : depth - 1 ≤ Q.length := by omega
        have hsegQ : ∀ s ∈ Q, '/' ∉ s := fun s hs => hseg s (by simp [hs])
        have ht : (Q ++ [x]).take (depth - 1) = Q.take (depth - 1) :=
          List.take_append_of_le_length hlenQ
        rw [ht]
        exact ih hlenQ hsegQ
    · simp only [truncLoop, if_neg hd]
      right
      have h1 : depth - 1 = Q.length + 1 := by omega
      have h2' : (Q ++ [x]).take (depth - 1) = Q ++ [x] := by
        apply List.take_of_length_le
        simp [h1]
      rw [h2', h1]

/-- `update_full_path` on a joined segment path: the tracked prefix is cut to
`depth - 1` segments and the frame's name becomes the last segment (whether or
not the suffix-matching optimization fires). -/
theorem update_on_join (P : List (List Char)) (name : List Char) (depth : Nat)
    (hd : 1 ≤ depth) (hlen : depth - 1 ≤ P.length)
    (hseg : ∀ s ∈ P, segOk s) (hname : segOk name) :
    update_full_path (joinSegs P) P.length (some name) depth
      = some (joinSegs (P.take (depth - 1) ++ [name]), depth) := by
  by_cases h1 : depth < 2
  · have hdepth : depth = 1 := by omega
    subst hdepth
    simp [update_full_path, updateAppend, joinSegs]
  · have h2 : 2 ≤ depth := by omega
    have hseg' : ∀ s ∈ P, '/' ∉ s := fun s hs => (hseg s hs).2
    have htake_ne : P.take (depth - 1) ≠ [] := by
      have hmin : (P.take (depth - 1)).length = depth - 1 := by
        rw [List.length_take]
        exact Nat.min_eq_left hlen
      intro hh
      rw [hh] at hmin
      simp at hmin
      omega
    have htake_seg : ∀ s ∈ P.take (depth - 1), s ≠ [] :=
      fun s hs => (hseg s (List.take_subset _ _ hs)).1
    have hjoin_ne : joinSegs (P.take (depth - 1)) ≠ [] := joinSegs_ne_nil htake_ne htake_seg
    rcases truncLoop_join name depth P h2 hlen hseg' hname.2 with hTL | hTL
    · simp [update_full_path, if_neg h1, hTL]
    · simp only [update_full_path, if_neg h1, hTL]
      rw [if_neg (by simp)]
      have harith : depth - 1 + 1 = depth := by omega
      simp [updateAppend, List.isEmpty_eq_true, hjoin_ne, harith,
        joinSegs_append_last htake_ne]

/-- `update_full_path` for a root frame always resets to the empty path. -/
theorem update_root (fp : List Char) (od : Nat) :
    update_full_path fp od none 0 = some ([], 0) := by
  simp [update_full_path, updateAppend]

/-- The truncation loop only returns early at exactly the target depth. -/
theorem truncLoop_early_depth {name : Option (List Char)} {depth : Nat} :
    ∀ {fp : List Char} {od : Nat} {fp1 : List Char} {od1 : Nat},
    truncLoop name depth fp od = some (fp1, od1, true) → od1 = depth := by
  intro fp od
  induction od generalizing fp with
  | zero =>
    intro fp1 od1 h
    simp [truncLoop] at h
  | succ n ih =>
    intro fp1 od1 h
    simp only [truncLoop] at h
    split at h
    · split at h
      · cases h
      · split at h
        · rename_i hc
          cases h
          exact hc.1
        · exact ih h
    · cases h

/-- The append-and-assert tail keeps the assert: on a normal return the new
depth is the target depth. -/
theorem updateAppend_returns_depth {fp : List Char} {od : Nat} {name : Option (List Char)}
    {depth : Nat} {fp' : List Char} {od' : Nat}
    (h : updateAppend fp od name depth = some (fp', od')) : od' = depth := by
  cases name with
  | none =>
    simp only [updateAppend] at h
    split at h
    · rename_i hc
      cases h
      exact hc
    · cases h
  | some n =>
    simp only [updateAppend] at h
    split at h
    · rename_i hc
      cases h
      exact hc
    · cases h

/-- The path tracker's postcondition: a call that returns normally leaves the
tracked depth exactly at the target depth. -/
theorem update_returns_depth {fp : List Char} {od : Nat} {name : Option (List Char)}
    {depth : Nat} {fp' : List Char} {od' : Nat}
    (h : update_full_path fp od name depth = some (fp', od')) : od' = depth := by
  unfold update_full_path at h
  by_cases hd : depth < 2
  · rw [if_pos hd] at h
    exact updateAppend_returns_depth h
  · rw [if_neg hd] at h
    rcases heq : truncLoop name depth fp od with _ | ⟨fp1, od1, b⟩
    · rw [heq] at h
      cases h
    · rw [heq] at h
      cases b
      · simp at h
        exact updateAppend_returns_depth h
      · simp at h
        obtain ⟨h1, h2⟩ := h
        have hE := truncLoop_early_depth heq
        omega


/-! ### Equations for one loop iteration (`step`) on each frame shape -/

theorem step_descentRoot_leaves {s : PostOrderIterator} {p : Option Nat} {nid : Nat}
    {nodes : EntryList} {rest : List Visited} {leaves : Leaves}
    (hpart : partition_children_leaves 0 nodes = (leaves, [])) :
    step s (.descentRoot (.mk p nid nodes)) rest =
      .more { s with
        full_path := [], old_depth := 0,
        pending := Visited.postRoot (.direct leaves) :: rest } := by
  simp only [step, update_root, hpart, List.isEmpty_nil, if_pos]

theorem step_descentRoot_children {s : PostOrderIterator} {p : Option Nat} {nid : Nat}
    {nodes : EntryList} {rest : List Visited} {leaves : Leaves} {children : List Visited}
    (hpart : partition_children_leaves 0 nodes = (leaves, children))
    (hne : children.isEmpty = false) :
    step s (.descentRoot (.mk p nid nodes)) rest =
      .more { s with
        full_path := [], old_depth := 0,
        persisted_cids := stashInsert nid leaves s.persisted_cids,
        pending := children.reverse ++ Visited.postRoot (.stashed nid) :: rest } := by
  simp only [step, update_root, hpart, hne]
  rfl

theorem step_descent_leaves {s : PostOrderIterator} {parent_id nid : Nat}
    {nodes : EntryList} {nm : String} {depth index : Nat} {rest : List Visited}
    {fp : List Char} {od : Nat} {leaves : Leaves}
    (hup : update_full_path s.full_path s.old_depth (some nm.data) depth = some (fp, od))
    (hpart : partition_children_leaves depth nodes = (leaves, [])) :
    step s (.descent (.mk (some parent_id) nid nodes) nm depth index) rest =
      .more { s with
        full_path := fp, old_depth := od,
        pending := Visited.post parent_id depth nm index (.direct leaves) :: rest } := by
  simp only [step, hup, hpart, List.isEmpty_nil, if_pos]

theorem step_descent_children {s : PostOrderIterator} {parent_id nid : Nat}
    {nodes : EntryList} {nm : String} {depth index : Nat} {rest : List Visited}
    {fp : List Char} {od : Nat} {leaves : Leaves} {children : List Visited}
    (hup : update_full_path s.full_path s.old_depth (some nm.data) depth = some (fp, od))
    (hpart : partition_children_leaves depth nodes = (leaves, children))
    (hne : children.isEmpty = false) :
    step s (.descent (.mk (some parent_id) nid nodes) nm depth index) rest =
      .more { s with
        full_path := fp, old_depth := od,
        persisted_cids := stashInsert nid leaves s.persisted_cids,
        pending := children.reverse ++
            Visited.post parent_id depth nm index (.stashed nid) :: rest } := by
  simp only [step, hup, hpart, hne]
  rfl

theorem step_post_ok {s : PostOrderIterator} {parent_id depth : Nat} {nm : String}
    {index : Nat} {storage : LeafStorage} {rest : List Visited} {fp : List Char} {od : Nat}
    {lvs : Leaves} {st1 : Stash} {leaf : Leaf} {bytes : List Nat} {vec vec2 : Leaves}
    (hup : update_full_path s.full_path s.old_depth (some nm.data) depth = some (fp, od))
    (hinner : storage.into_inner s.persisted_cids = some (lvs, st1))
    (hrender : render_directory lvs s.opts.block_size_limit = some (.ok (leaf, bytes)))
    (hlook : stashLookup parent_id st1 = some vec)
    (hslot : setSlot vec index ⟨nm, leaf.link, leaf.total_size⟩ = some vec2) :
    step s (.post parent_id depth nm index storage) rest =
      .ret (.yield ⟨fp, leaf.link, leaf.total_size, bytes⟩)
        { s with
          full_path := fp, old_depth := od, pending := rest,
          persisted_cids := stashUpdate parent_id vec2 st1,
          cid := some leaf.link, total_size := leaf.total_size, block_buffer := bytes } := by
  simp only [step, hup, hinner, hrender, hlook, hslot]

theorem step_post_err {s : PostOrderIterator} {parent_id depth : Nat} {nm : String}
    {index : Nat} {storage : LeafStorage} {rest : List Visited} {fp : List Char} {od : Nat}
    {lvs : Leaves} {st1 : Stash} {e : TreeConstructionFailed}
    (hup : update_full_path s.full_path s.old_depth (some nm.data) depth = some (fp, od))
    (hinner : storage.into_inner s.persisted_cids = some (lvs, st1))
    (hrender : render_directory lvs s.opts.block_size_limit = some (.error e)) :
    step s (.post parent_id depth nm index storage) rest =
      .ret (.failed e)
        { s with
          full_path := fp, old_depth := od, pending := rest,
          persisted_cids := st1 } := by
  simp only [step, hup, hinner, hrender]

theorem step_postRoot_nowrap {s : PostOrderIterator} {storage : LeafStorage}
    {rest : List Visited} {lvs : Leaves} {st1 : Stash}
    (hinner : storage.into_inner s.persisted_cids = some (lvs, st1))
    (hwrap : s.opts.wrap_with_directory = false) :
    step s (.postRoot storage) rest =
      .ret .exhausted
        { s with
          full_path := [], old_depth := 0, pending := rest,
          persisted_cids := st1 } := by
  simp only [step, update_root, hinner, hwrap]
  rfl

theorem step_postRoot_ok {s : PostOrderIterator} {storage : LeafStorage}
    {rest : List Visited} {lvs : Leaves} {st1 : Stash} {leaf : Leaf} {bytes : List Nat}
    (hinner : storage.into_inner s.persisted_cids = some (lvs, st1))
    (hwrap : s.opts.wrap_with_directory = true)
    (hrender : render_directory lvs s.opts.block_size_limit = some (.ok (leaf, bytes))) :
    step s (.postRoot storage) rest =
      .ret (.yield ⟨[], leaf.link, leaf.total_size, bytes⟩)
        { s with
          full_path := [], old_depth := 0, pending := rest,
          persisted_cids := st1,
          cid := some leaf.link, total_size := leaf.total_size, block_buffer := bytes } := by
  simp only [step, update_root, hinner, hwrap, hrender]
  rfl

theorem step_postRoot_err {s : PostOrderIterator} {storage : LeafStorage}
    {rest : List Visited} {lvs : Leaves} {st1 : Stash} {e : TreeConstructionFailed}
    (hinner : storage.into_inner s.persisted_cids = some (lvs, st1))
    (hwrap : s.opts.wrap_with_directory = true)
    (hrender : render_directory lvs s.opts.block_size_limit = some (.error e)) :
    step s (.postRoot storage) rest =
      .ret (.failed e)
        { s with
          full_path := [], old_depth := 0, pending := rest,
          persisted_cids := st1 } := by
  simp only [step, update_root, hinner, hwrap, hrender]
  rfl

/-- `step_descentRoot_leaves` with the state and stack passed explicitly. -/
theorem step_descentRoot_leavesE (s : PostOrderIterator) (rest : List Visited)
    (p : Option Nat) (nid : Nat) {nodes : EntryList} {leaves : Leaves}
    (hpart : partition_children_leaves 0 nodes = (leaves, [])) :
    step s (.descentRoot (.mk p nid nodes)) rest =
      .more { s with
        full_path := [], old_depth := 0,
        pending := Visited.postRoot (.direct leaves) :: rest } :=
  step_descentRoot_leaves hpart

/-- `step_descentRoot_children` with the state and stack passed explicitly. -/
theorem step_descentRoot_childrenE (s : PostOrderIterator) (rest : List Visited)
    (p : Option Nat) (nid : Nat) {nodes : EntryList} {leaves : Leaves}
    {children : List Visited}
    (hpart : partition_children_leaves 0 nodes = (leaves, children))
    (hne : children.isEmpty = false) :
    step s (.descentRoot (.mk p nid nodes)) rest =
      .more { s with
        full_path := [], old_depth := 0,
        persisted_cids := stashInsert nid leaves s.persisted_cids,
        pending := children.reverse ++ Visited.postRoot (.stashed nid) :: rest } :=
  step_descentRoot_children hpart hne

/-- `step_descent_leaves` with the state, stack and frame ids passed explicitly. -/
theorem step_descent_leavesE (s : PostOrderIterator) (rest : List Visited)
    (parent_id nid index : Nat) {nodes : EntryList} {nm : String} {depth : Nat}
    {fp : List Char} {od : Nat} {leaves : Leaves}
    (hup : update_full_path s.full_path s.old_depth (some nm.data) depth = some (fp, od))
    (hpart : partition_children_leaves depth nodes = (leaves, [])) :
    step s (.descent (.mk (some parent_id) nid nodes) nm depth index) rest =
      .more { s with
        full_path := fp, old_depth := od,
        pending := Visited.post parent_id depth nm index (.direct leaves) :: rest } :=
  step_descent_leaves hup hpart

/-- `step_descent_children` with the state, stack and frame ids passed explicitly. -/
theorem step_descent_childrenE (s : PostOrderIterator) (rest : List Visited)
    (parent_id nid index : Nat) {nodes : EntryList} {nm : String} {depth : Nat}
    {fp : List Char} {od : Nat} {leaves : Leaves} {children : List Visited}
    (hup : update_full_path s.full_path s.old_depth (some nm.data) depth = some (fp, od))
    (hpart : partition_children_leaves depth nodes = (leaves, children))
    (hne : children.isEmpty = false) :
    step s (.descent (.mk (some parent_id) nid nodes) nm depth index) rest =
      .more { s with
        full_path := fp, old_depth := od,
        persisted_cids := stashInsert nid leaves s.persisted_cids,
        pending := children.reverse ++
            Visited.post parent_id depth nm index (.stashed nid) :: rest } :=
  step_descent_children hup hpart hne

/-- `step_post_ok` with the state and stack passed explicitly. -/
theorem step_post_okE (s : PostOrderIterator) (rest : List Visited)
    {parent_id depth : Nat} {nm : String} {index : Nat} {storage : LeafStorage}
    {fp : List Char} {od : Nat} {lvs : Leaves} {st1 : Stash} {leaf : Leaf}
    {bytes : List Nat} {vec vec2 : Leaves}
    (hup : update_full_path s.full_path s.old_depth (some nm.data) depth = some (fp, od))
    (hinner : storage.into_inner s.persisted_cids = some (lvs, st1))
    (hrender : render_directory lvs s.opts.block_size_limit = some (.ok (leaf, bytes)))
    (hlook : stashLookup parent_id st1 = some vec)
    (hslot : setSlot vec index ⟨nm, leaf.link, leaf.total_size⟩ = some vec2) :
    step s (.post parent_id depth nm index storage) rest =
      .ret (.yield ⟨fp, leaf.link, leaf.total_size, bytes⟩)
        { s with
          full_path := fp, old_depth := od, pending := rest,
          persisted_cids := stashUpdate parent_id vec2 st1,
          cid := some leaf.link, total_size := leaf.total_size, block_buffer := bytes } :=
  step_post_ok hup hinner hrender hlook hslot

/-- `step_postRoot_nowrap` with the state and stack passed explicitly. -/
theorem step_postRoot_nowrapE (s : PostOrderIterator) (rest : List Visited)
    {storage : LeafStorage} {lvs : Leaves} {st1 : Stash}
    (hinner : storage.into_inner s.persisted_cids = some (lvs, st1))
    (hwrap : s.opts.wrap_with_directory = false) :
    step s (.postRoot storage) rest =
      .ret .exhausted
        { s with
          full_path := [], old_depth := 0, pending := rest,
          persisted_cids := st1 } :=
  step_postRoot_nowrap hinner hwrap

/-- `step_postRoot_ok` with the state and stack passed explicitly. -/
theorem step_postRoot_okE (s : PostOrderIterator) (rest : List Visited)
    {storage : LeafStorage} {lvs : Leaves} {st1 : Stash} {leaf : Leaf} {bytes : List Nat}
    (hinner : storage.into_inner s.persisted_cids = some (lvs, st1))
    (hwrap : s.opts.wrap_with_directory = true)
    (hrender : render_directory lvs s.opts.block_size_limit = some (.ok (leaf, bytes))) :
    step s (.postRoot storage) rest =
      .ret (.yield ⟨[], leaf.link, leaf.total_size, bytes⟩)
        { s with
          full_path := [], old_depth := 0, pending := rest,
          persisted_cids := st1,
          cid := some leaf.link, total_size := leaf.total_size, block_buffer := bytes } :=
  step_postRoot_ok hinner hwrap hrender

/-- `next_borrowed_cons_ret` with the state passed explicitly. -/
theorem next_borrowed_cons_retE (s : PostOrderIterator) {v : Visited} {rest : List Visited}
    {r : PullResult} {s1 : PostOrderIterator} (h : s.pending = v :: rest)
    (h2 : step s v rest = .ret r s1) :
    next_borrowed s = (r, s1) :=
  next_borrowed_cons_ret h h2

/-! ### Renderer and reference-link facts -/

theorem render_directory_none_ok {L : Leaves} (h : L.all Option.isSome = true) :
    render_directory L none =
      some (.ok (⟨specHash (specEncode L), (specEncode L).length + sumSizes L⟩,
        specEncode L)) := by
  simp [render_directory, render_directory.renderBody, h]

theorem refLeaves_all_some (el : EntryList) : (refLeaves el).all Option.isSome = true := by
  match el with
  | .nil => rfl
  | .cons k (.directory c) rest =>
    have ih := refLeaves_all_some rest
    simp [refLeaves, ih]
  | .cons k (.leaf l t) rest =>
    have ih := refLeaves_all_some rest
    simp [refLeaves, ih]

theorem refLink_eq (p : Option Nat) (i : Nat) (nodes : EntryList) :
    refLink (.mk p i nodes) =
      ⟨specHash (specEncode (refLeaves nodes)),
        (specEncode (refLeaves nodes)).length + sumSizes (refLeaves nodes)⟩ := by
  rw [refLink]

/-! ### Partitioner facts -/

theorem partitionGo_nil (depth i : Nat) : partitionGo depth i .nil = ([], []) := rfl

theorem partitionGo_cons_dir (depth i : Nat) (k : String) (c : DirBuilder) (rest : EntryList) :
    partitionGo depth i (.cons k (.directory c) rest) =
      (none :: (partitionGo depth (i + 1) rest).1,
        .descent c k (depth + 1) i :: (partitionGo depth (i + 1) rest).2) := rfl

theorem partitionGo_cons_leaf (depth i : Nat) (k : String) (l t : Nat) (rest : EntryList) :
    partitionGo depth i (.cons k (.leaf l t) rest) =
      (some ⟨k, l, t⟩ :: (partitionGo depth (i + 1) rest).1,
        (partitionGo depth (i + 1) rest).2) := rfl

theorem set_append_length {α : Type} (pre : List α) (x : α) (t : List α) (v : α) :
    (pre ++ x :: t).set pre.length v = pre ++ v :: t := by
  induction pre with
  | nil => rfl
  | cons a pre ih => simp [List.set, ih]

theorem getElem?_append_length {α : Type} (pre : List α) (x : α) (t : List α) :
    (pre ++ x :: t)[pre.length]? = some x := by
  induction pre with
  | nil => simp
  | cons a pre ih => simpa using ih

/-- Filling every subdirectory hole of a freshly partitioned link list with the
reference link of the corresponding subtree yields the fully resolved list. -/
theorem fillsApplied_partition (nodes : EntryList) (depth i : Nat) (pre : Leaves)
    (hpre : pre.length = i) :
    fillsApplied nodes i (pre ++ (partitionGo depth i nodes).1) = pre ++ refLeaves nodes := by
  match nodes with
  | .nil => simp [fillsApplied, partitionGo_nil, refLeaves]
  | .cons k (.directory c) rest =>
    rw [partitionGo_cons_dir]
    simp only [fillsApplied]
    have hset : (pre ++ none :: (partitionGo depth (i + 1) rest).1).set i
        (some ⟨k, (refLink c).link, (refLink c).total_size⟩) =
        (pre ++ [some ⟨k, (refLink c).link, (refLink c).total_size⟩]) ++
          (partitionGo depth (i + 1) rest).1 := by
      rw [← hpre, set_append_length]
      simp
    rw [hset]
    have hrec := fillsApplied_partition rest depth (i + 1)
      (pre ++ [some ⟨k, (refLink c).link, (refLink c).total_size⟩])
      (by simp [hpre])
    rw [hrec]
    simp [refLeaves]
  | .cons k (.leaf l t) rest =>
    rw [partitionGo_cons_leaf]
    simp only [fillsApplied]
    have hsplit : pre ++ some ⟨k, l, t⟩ :: (partitionGo depth (i + 1) rest).1 =
        (pre ++ [some ⟨k, l, t⟩]) ++ (partitionGo depth (i + 1) rest).1 := by simp
    rw [hsplit]
    have hrec := fillsApplied_partition rest depth (i + 1) (pre ++ [some ⟨k, l, t⟩])
      (by simp [hpre])
    rw [hrec]
    simp [refLeaves]

/-- A freshly partitioned link list has a hole at every subdirectory position. -/
theorem slotsNone_partition (nodes : EntryList) (depth i : Nat) (pre : Leaves)
    (hpre : pre.length = i) :
    slotsNone nodes i (pre ++ (partitionGo depth i nodes).1) := by
  match nodes with
  | .nil => trivial
  | .cons k (.directory c) rest =>
    rw [partitionGo_cons_dir]
    refine ⟨?_, ?_⟩
    · rw [← hpre, getElem?_append_length]
    · have : pre ++ none :: (partitionGo depth (i + 1) rest).1 =
          (pre ++ [none]) ++ (partitionGo depth (i + 1) rest).1 := by simp
      rw [this]
      exact slotsNone_partition rest depth (i + 1) (pre ++ [none]) (by simp [hpre])
  | .cons k (.leaf l t) rest =>
    rw [partitionGo_cons_leaf]
    have : pre ++ some ⟨k, l, t⟩ :: (partitionGo depth (i + 1) rest).1 =
        (pre ++ [some ⟨k, l, t⟩]) ++ (partitionGo depth (i + 1) rest).1 := by simp
    show slotsNone rest (i + 1) _
    rw [this]
    exact slotsNone_partition rest depth (i + 1) (pre ++ [some ⟨k, l, t⟩]) (by simp [hpre])

theorem fillsApplied_set_comm (el : EntryList) {i j : Nat} (h : j < i) (L : Leaves)
    (v : Option NamedLeaf) :
    fillsApplied el i (L.set j v) = (fillsApplied el i L).set j v := by
  match el with
  | .nil => rfl
  | .cons k (.directory c) rest =>
    simp only [fillsApplied]
    rw [List.set_comm _ _ _ (by omega)]
    exact fillsApplied_set_comm rest (by omega) _ v
  | .cons k (.leaf _ _) rest =>
    simp only [fillsApplied]
    exact fillsApplied_set_comm rest (by omega) L v

theorem fillsApplied_getElem_lt (el : EntryList) {i j : Nat} (h : j < i) (L : Leaves) :
    (fillsApplied el i L)[j]? = L[j]? := by
  match el with
  | .nil => rfl
  | .cons k (.directory c) rest =>
    simp only [fillsApplied]
    rw [fillsApplied_getElem_lt rest (by omega)]
    exact List.getElem?_set_ne (by omega)
  | .cons k (.leaf _ _) rest =>
    simp only [fillsApplied]
    exact fillsApplied_getElem_lt rest (by omega) L

theorem slotsNone_set_lt (el : EntryList) {i j : Nat} (h : j < i) {L : Leaves}
    (hs : slotsNone el i L) (v : Option NamedLeaf) : slotsNone el i (L.set j v) := by
  match el with
  | .nil => trivial
  | .cons k (.directory c) rest =>
    obtain ⟨h1, h2⟩ := hs
    refine ⟨?_, slotsNone_set_lt rest (by omega) h2 v⟩
    rw [List.getElem?_set_ne (by omega)]
    exact h1
  | .cons k (.leaf _ _) rest =>
    exact slotsNone_set_lt rest (by omega) hs v

theorem fillsApplied_of_no_frames (el : EntryList) (depth i : Nat)
    (h : (partitionGo depth i el).2 = []) (L : Leaves) : fillsApplied el i L = L := by
  match el with
  | .nil => rfl
  | .cons k (.directory c) rest =>
    rw [partitionGo_cons_dir] at h
    cases h
  | .cons k (.leaf l t) rest =>
    rw [partitionGo_cons_leaf] at h
    exact fillsApplied_of_no_frames rest depth (i + 1) h L

/-- Without subdirectory children, partitioning already yields the fully
resolved link list. -/
theorem partition_leaves_of_no_frames (el : EntryList) (depth : Nat)
    (h : (partitionGo depth 0 el).2 = []) :
    (partitionGo depth 0 el).1 = refLeaves el := by
  have h1 := fillsApplied_partition el depth 0 [] rfl
  rw [fillsApplied_of_no_frames el depth 0 h] at h1
  simpa using h1

/-! ### Well-formedness extraction -/

theorem wfChildren_cons_dir {pid : Nat} {k : String} {cp : Option Nat} {cid2 : Nat}
    {cn : EntryList} {rest : EntryList}
    (h : wfChildren pid (.cons k (.directory (.mk cp cid2 cn)) rest) = true) :
    segOk k.data ∧ cp = some pid ∧ wfNode (.mk cp cid2 cn) = true ∧
      wfChildren pid rest = true := by
  rw [wfChildren] at h
  simp only [Bool.and_eq_true, decide_eq_true_eq, beq_iff_eq, DirBuilder.parent_id] at h
  exact ⟨⟨h.1.1.1.1, h.1.1.1.2⟩, h.1.1.2, h.1.2, h.2⟩

theorem wfChildren_cons_leaf {pid : Nat} {k : String} {l t : Nat} {rest : EntryList}
    (h : wfChildren pid (.cons k (.leaf l t) rest) = true) :
    segOk k.data ∧ wfChildren pid rest = true := by
  rw [wfChildren] at h
  simp only [Bool.and_eq_true, decide_eq_true_eq] at h
  exact ⟨⟨h.1.1, h.1.2⟩, h.2⟩

theorem wfNode_eq (p : Option Nat) (i : Nat) (nodes : EntryList) :
    wfNode (.mk p i nodes) = wfChildren i nodes := by
  rw [wfNode]

/-! ### The simulation: the stack machine computes the reference rendering -/

theorem prependOut_nil (p : List (Except TreeConstructionFailed TreeNode) × Bool) :
    prependOut [] p = p := rfl

theorem prependOut_prependOut (a b : List (Except TreeConstructionFailed TreeNode))
    (p : List (Except TreeConstructionFailed TreeNode) × Bool) :
    prependOut a (prependOut b p) = prependOut (a ++ b) p := by
  simp [prependOut]

theorem runAll_yield_prepend {s : PostOrderIterator} {t : TreeNode} {s' : PostOrderIterator}
    (h : next_borrowed s = (.yield t, s')) :
    runAll s = prependOut [.ok t] (runAll s') := by
  rw [runAll_yield h]
  rfl

theorem refChildrenOut_of_no_frames (el : EntryList) (depth i : Nat)
    (segs : List (List Char)) (h : (partitionGo depth i el).2 = []) :
    refChildrenOut el segs = [] := by
  match el with
  | .nil => rfl
  | .cons k (.directory c) rest =>
    rw [partitionGo_cons_dir] at h
    cases h
  | .cons k (.leaf l t) rest =>
    rw [partitionGo_cons_leaf] at h
    exact refChildrenOut_of_no_frames rest depth (i + 1) segs h

mutual
/-- Processing one descend frame for a well-formed subtree with the block
size limit off: the pulls emit exactly the subtree's reference records, the
parent slot is filled with the subtree's reference link, and the machine
continues from the predicted state. -/
theorem simNode (cp : Option Nat) (nid : Nat) (nodes : EntryList) (nm : String)
    (depth index : Nat) (pid : Nat) (Lp : Leaves) (stash0 : Stash) (rest : List Visited)
    (P : List (List Char)) (s : PostOrderIterator)
    (hpend : s.pending = .descent (.mk cp nid nodes) nm depth index :: rest)
    (hcp : cp = some pid)
    (hstash : s.persisted_cids = (pid, Lp) :: stash0)
    (hpid0 : stashLookup pid stash0 = none)
    (hslot : Lp[index]? = some none)
    (hwf : wfNode (.mk cp nid nodes) = true)
    (hnodup : (subtreeIds (.mk cp nid nodes)).Nodup)
    (hfresh : ∀ id ∈ subtreeIds (.mk cp nid nodes), id ≠ pid ∧ stashLookup id stash0 = none)
    (hname : segOk nm.data)
    (hdep : 1 ≤ depth)
    (hpath : s.full_path = joinSegs P)
    (hod : s.old_depth = P.length)
    (hlen : depth - 1 ≤ P.length)
    (hPseg : ∀ x ∈ P, segOk x)
    (hlimit : s.opts.block_size_limit = none) :
    runAll s = prependOut
      ((refOutputs (.mk cp nid nodes) (P.take (depth - 1) ++ [nm.data])).map Except.ok)
      (runAll (simState s rest pid
        (Lp.set index (some ⟨nm, (refLink (.mk cp nid nodes)).link,
          (refLink (.mk cp nid nodes)).total_size⟩)) stash0
        (P.take (depth - 1) ++ [nm.data])
        (some (refLink (.mk cp nid nodes)).link)
        ((refLink (.mk cp nid nodes)).total_size)
        (specEncode (refLeaves nodes)))) := by
  subst hcp
  have hP'len : (P.take (depth - 1) ++ [nm.data]).length = depth := by
    simp only [List.length_append, List.length_take, List.length_cons, List.length_nil]
    omega
  have hP'seg : ∀ x ∈ P.take (depth - 1) ++ [nm.data], segOk x := by
    intro x hx
    rcases List.mem_append.mp hx with hx | hx
    · exact hPseg x (List.take_subset _ _ hx)
    · simp only [List.mem_singleton] at hx
      rw [hx]
      exact hname
  have hP'take : (P.take (depth - 1) ++ [nm.data]).take (depth - 1) = P.take (depth - 1) := by
    rw [List.take_append_of_le_length (by simp [List.length_take]; omega)]
    rw [List.take_take, Nat.min_self]
  have hup : update_full_path s.full_path s.old_depth (some nm.data) depth
      = some (joinSegs (P.take (depth - 1) ++ [nm.data]), depth) := by
    rw [hpath, hod]
    exact update_on_join P nm.data depth hdep hlen hPseg hname
  have hup2 : update_full_path (joinSegs (P.take (depth - 1) ++ [nm.data])) depth
      (some nm.data) depth = some (joinSegs (P.take (depth - 1) ++ [nm.data]), depth) := by
    have h0 := update_on_join (P.take (depth - 1) ++ [nm.data]) nm.data depth hdep
      (by rw [hP'len]; omega) hP'seg hname
    rw [hP'take, hP'len] at h0
    exact h0
  have hrender0 : render_directory (refLeaves nodes) none
      = some (.ok (refLink (.mk (some pid) nid nodes), specEncode (refLeaves nodes))) := by
    rw [refLink_eq]
    exact render_directory_none_ok (refLeaves_all_some nodes)
  have hnidmem : nid ∈ subtreeIds (.mk (some pid) nid nodes) := by
    rw [subtreeIds]
    exact List.mem_cons_self _ _
  have hnidpid : nid ≠ pid := (hfresh nid hnidmem).1
  have hnid0 : stashLookup nid stash0 = none := (hfresh nid hnidmem).2
  rcases hch : partition_children_leaves depth nodes with ⟨leaves0, children⟩
  have hchGo : partitionGo depth 0 nodes = (leaves0, children) := hch
  have hch1 : (partitionGo depth 0 nodes).1 = leaves0 := by rw [hchGo]
  have hch2 : (partitionGo depth 0 nodes).2 = children := by rw [hchGo]
  by_cases hchild : children = []
  · -- no subdirectory children: direct storage, a single post frame
    subst hchild
    have hlv : leaves0 = refLeaves nodes := by
      have h1 := partition_leaves_of_no_frames nodes depth (by rw [hchGo])
      rw [hch1] at h1
      exact h1
    have hstep1 := step_descent_leavesE s rest pid nid index hup hch
    have hnext1 := next_borrowed_cons_more hpend hstep1
    set s1 : PostOrderIterator := { s with
      full_path := joinSegs (P.take (depth - 1) ++ [nm.data]),
      old_depth := depth,
      pending := Visited.post pid depth nm index (.direct leaves0) :: rest } with hs1
    have hup1 : update_full_path s1.full_path s1.old_depth (some nm.data) depth
        = some (joinSegs (P.take (depth - 1) ++ [nm.data]), depth) := hup2
    have hinner1 : (LeafStorage.direct leaves0).into_inner s1.persisted_cids
        = some (leaves0, s1.persisted_cids) := rfl
    have hrender1 : render_directory leaves0 s1.opts.block_size_limit
        = some (.ok (refLink (.mk (some pid) nid nodes), specEncode (refLeaves nodes))) := by
      have hlim1 : s1.opts.block_size_limit = none := hlimit
      rw [hlv, hlim1]
      exact hrender0
    have hlook1 : stashLookup pid s1.persisted_cids = some Lp := by
      have : s1.persisted_cids = (pid, Lp) :: stash0 := hstash
      rw [this]
      exact stashLookup_cons_self pid Lp stash0
    have hslot1 := setSlot_of_none hslot
      ⟨nm, (refLink (.mk (some pid) nid nodes)).link,
        (refLink (.mk (some pid) nid nodes)).total_size⟩
    have hstep2 := step_post_okE s1 rest hup1 hinner1 hrender1 hlook1 hslot1
    have hnext2 := next_borrowed_cons_retE s1 rfl hstep2
    rw [runAll_eq_of_next_eq hnext1, runAll_yield_prepend hnext2]
    have houts : refOutputs (.mk (some pid) nid nodes) (P.take (depth - 1) ++ [nm.data])
        = [refRecord (.mk (some pid) nid nodes) (P.take (depth - 1) ++ [nm.data])] := by
      rw [refOutputs]
      rw [refChildrenOut_of_no_frames nodes depth 0 _ (by rw [hchGo])]
      rfl
    rw [houts]
    congr 1
    all_goals first
      | (simp [refRecord, refLink_eq, DirBuilder.nodes]; done)
      | exact congrArg runAll
          (by simp [simState, hs1, hstash, stashUpdate_canonical hpid0, hP'len])
  · -- at least one subdirectory child: stash the holes, then the children run
    have hchE : children.isEmpty = false := by
      cases children with
      | nil => exact absurd rfl hchild
      | cons a b => rfl
    have hstep1 := step_descent_childrenE s rest pid nid index hup hch hchE
    have hnext1 := next_borrowed_cons_more hpend hstep1
    have hins : stashInsert nid leaves0 s.persisted_cids
        = (nid, leaves0) :: (pid, Lp) :: stash0 := by
      rw [hstash]
      simp only [stashInsert]
      rw [eraseKey_cons_ne (Ne.symm hnidpid), eraseKey_of_lookup_none hnid0]
    set s1 : PostOrderIterator := { s with
      full_path := joinSegs (P.take (depth - 1) ++ [nm.data]),
      old_depth := depth,
      persisted_cids := stashInsert nid leaves0 s.persisted_cids,
      pending := children.reverse ++
        Visited.post pid depth nm index (.stashed nid) :: rest } with hs1
    -- the children run
    have hwfC : wfChildren nid nodes = true := by
      rw [← wfNode_eq (some pid)]
      exact hwf
    have hsubt : subtreeIds (.mk (some pid) nid nodes) = nid :: childIds nodes := by
      rw [subtreeIds]
    have hidsC : (childIds nodes).Nodup := by
      rw [hsubt] at hnodup
      exact hnodup.of_cons
    have hnidnotin : nid ∉ childIds nodes := by
      rw [hsubt, List.nodup_cons] at hnodup
      exact hnodup.1
    have hsim := simChildren nodes nid depth (P.take (depth - 1) ++ [nm.data]) 0
      leaves0 ((pid, Lp) :: stash0) (Visited.post pid depth nm index (.stashed nid) :: rest)
      (P.take (depth - 1) ++ [nm.data]) s1
      (by
        show s1.pending = _
        rw [hs1]
        simp only []
        rw [hch2])
      (by
        show s1.persisted_cids = _
        rw [hs1]
        simp only []
        exact hins)
      (by
        rw [stashLookup_cons_ne (Ne.symm hnidpid)]
        exact hnid0)
      (by
        have := slotsNone_partition nodes depth 0 [] rfl
        rw [hch1] at this
        simpa using this)
      hwfC hidsC
      (by
        intro id hid
        have hmem : id ∈ subtreeIds (.mk (some pid) nid nodes) := by
          rw [hsubt]
          exact List.mem_cons_of_mem _ hid
        refine ⟨?_, ?_⟩
        · intro hh
          rw [hh] at hid
          exact hnidnotin hid
        · rw [stashLookup_cons_ne (Ne.symm (hfresh id hmem).1)]
          exact (hfresh id hmem).2)
      rfl (by show depth = _; exact hP'len.symm)
      (List.take_of_length_le (by rw [hP'len]))
      (by rw [hP'len])
      hP'seg hlimit
    obtain ⟨P2, c2, t2, b2, htk2, hl2, hsg2, heq2⟩ := hsim
    have hfill : fillsApplied nodes 0 leaves0 = refLeaves nodes := by
      have h1 := fillsApplied_partition nodes depth 0 [] rfl
      rw [hch1] at h1
      simpa using h1
    rw [hfill] at heq2
    -- process the node's own post frame from the children's final state
    set s2 : PostOrderIterator := simState s1
      (Visited.post pid depth nm index (.stashed nid) :: rest) nid (refLeaves nodes)
      ((pid, Lp) :: stash0) P2 c2 t2 b2 with hs2
    have hP2take : P2.take (depth - 1) = P.take (depth - 1) := by
      have h1 : P2.take (depth - 1) = (P2.take depth).take (depth - 1) := by
        rw [List.take_take]
        congr 1
        omega
      rw [h1, htk2, hP'take]
    have hupP2 : update_full_path s2.full_path s2.old_depth (some nm.data) depth
        = some (joinSegs (P.take (depth - 1) ++ [nm.data]), depth) := by
      show update_full_path (joinSegs P2) P2.length (some nm.data) depth = _
      have h0 := update_on_join P2 nm.data depth hdep (by omega) hsg2 hname
      rw [hP2take] at h0
      exact h0
    have hinner2 : (LeafStorage.stashed nid).into_inner s2.persisted_cids
        = some (refLeaves nodes, (pid, Lp) :: stash0) := by
      show (LeafStorage.stashed nid).into_inner
        ((nid, refLeaves nodes) :: (pid, Lp) :: stash0) = _
      simp only [LeafStorage.into_inner, stashLookup_cons_self]
      rw [eraseKey_cons_self, eraseKey_cons_ne (Ne.symm hnidpid),
        eraseKey_of_lookup_none hnid0]
    have hrender2 : render_directory (refLeaves nodes) s2.opts.block_size_limit
        = some (.ok (refLink (.mk (some pid) nid nodes), specEncode (refLeaves nodes))) := by
      have hlim2 : s2.opts.block_size_limit = none := hlimit
      rw [hlim2]
      exact hrender0
    have hlook2 : stashLookup pid ((pid, Lp) :: stash0) = some Lp :=
      stashLookup_cons_self pid Lp stash0
    have hslot2 := setSlot_of_none hslot
      ⟨nm, (refLink (.mk (some pid) nid nodes)).link,
        (refLink (.mk (some pid) nid nodes)).total_size⟩
    have hstep2 := step_post_okE s2 rest hupP2 hinner2 hrender2 hlook2 hslot2
    have hnext2 := next_borrowed_cons_retE s2 rfl hstep2
    rw [runAll_eq_of_next_eq hnext1, heq2, runAll_yield_prepend hnext2,
      prependOut_prependOut]
    congr 1
    · rw [refOutputs]
      simp [refRecord, refLink_eq, DirBuilder.nodes]
    · exact congrArg runAll
        (by simp [simState, hs2, hs1, hstash, stashUpdate_canonical hpid0, hP'len])
termination_by tSize (.mk cp nid nodes)
decreasing_by
  all_goals simp [tSize, tList]

/-- Processing the (reversed) run of descend frames for the subdirectory
children of one directory: the pulls emit the children's reference records in
reverse child order and every hole of the parent's stashed list gets filled. -/
theorem simChildren (nodes : EntryList) (pid : Nat) (dp : Nat) (segs : List (List Char))
    (i : Nat) (Lcur : Leaves) (stash0 : Stash) (rest : List Visited)
    (P : List (List Char)) (s : PostOrderIterator)
    (hpend : s.pending = (partitionGo dp i nodes).2.reverse ++ rest)
    (hstash : s.persisted_cids = (pid, Lcur) :: stash0)
    (hpid0 : stashLookup pid stash0 = none)
    (hslots : slotsNone nodes i Lcur)
    (hwf : wfChildren pid nodes = true)
    (hids : (childIds nodes).Nodup)
    (hfresh : ∀ id ∈ childIds nodes, id ≠ pid ∧ stashLookup id stash0 = none)
    (hpath : s.full_path = joinSegs P)
    (hod : s.old_depth = P.length)
    (htake : P.take dp = segs)
    (hlen : dp ≤ P.length)
    (hPseg : ∀ x ∈ P, segOk x)
    (hlimit : s.opts.block_size_limit = none) :
    ∃ (P2 : List (List Char)) (c2 : Option Cid) (t2 : Nat) (b2 : List Nat),
      P2.take dp = segs ∧ dp ≤ P2.length ∧ (∀ x ∈ P2, segOk x) ∧
      runAll s = prependOut ((refChildrenOut nodes segs).map Except.ok)
        (runAll (simState s rest pid (fillsApplied nodes i Lcur) stash0 P2 c2 t2 b2)) := by
  have hsegs_len : segs.length = dp := by
    rw [← htake, List.length_take]
    exact Nat.min_eq_left hlen
  have hsegs_seg : ∀ x ∈ segs, segOk x := by
    intro x hx
    rw [← htake] at hx
    exact hPseg x (List.take_subset _ _ hx)
  match nodes with
  | .nil =>
    rw [partitionGo_nil] at hpend
    simp only [List.reverse_nil, List.nil_append] at hpend
    refine ⟨P, s.cid, s.total_size, s.block_buffer, htake, hlen, hPseg, ?_⟩
    have hs' : simState s rest pid (fillsApplied .nil i Lcur) stash0 P s.cid s.total_size
        s.block_buffer = s := by
      obtain ⟨f1, f2, f3, f4, f5, f6, f7, f8⟩ := s
      simp only at hpend hstash hpath hod
      simp [simState, fillsApplied, hpend, hstash, hpath, hod]
    rw [hs']
    rw [refChildrenOut]
    simp [prependOut]
  | .cons k (.directory (.mk cp2 cid2 cn2)) rest' =>
    rw [partitionGo_cons_dir] at hpend
    have hpend' : s.pending = (partitionGo dp (i + 1) rest').2.reverse ++
        (Visited.descent (.mk cp2 cid2 cn2) k (dp + 1) i :: rest) := by
      rw [hpend, List.reverse_cons, List.append_assoc]
      rfl
    obtain ⟨hkseg, hcp2, hwfc, hwfrest⟩ := wfChildren_cons_dir hwf
    have hidsEq : childIds (.cons k (.directory (.mk cp2 cid2 cn2)) rest') =
        subtreeIds (.mk cp2 cid2 cn2) ++ childIds rest' := by rw [childIds]
    rw [hidsEq] at hids hfresh
    rw [List.nodup_append] at hids
    obtain ⟨hidsc, hidsr, hdisj⟩ := hids
    obtain ⟨hslot0, hslots'⟩ := hslots
    have hsim1 := simChildren rest' pid dp segs (i + 1) Lcur stash0
      (Visited.descent (.mk cp2 cid2 cn2) k (dp + 1) i :: rest) P s
      hpend' hstash hpid0 hslots' hwfrest hidsr
      (fun id hid => hfresh id (List.mem_append_right _ hid))
      hpath hod htake hlen hPseg hlimit
    obtain ⟨P1, c1, t1, b1, htk1, hl1, hsg1, heq1⟩ := hsim1
    have hnodeSim := simNode cp2 cid2 cn2 k (dp + 1) i pid
      (fillsApplied rest' (i + 1) Lcur) stash0 rest P1
      (simState s (Visited.descent (.mk cp2 cid2 cn2) k (dp + 1) i :: rest) pid
        (fillsApplied rest' (i + 1) Lcur) stash0 P1 c1 t1 b1)
      rfl hcp2 rfl hpid0
      (by
        rw [fillsApplied_getElem_lt rest' (by omega)]
        exact hslot0)
      hwfc hidsc
      (fun id hid => hfresh id (List.mem_append_left _ hid))
      hkseg (by omega) rfl rfl (by omega) hsg1 hlimit
    rw [Nat.add_sub_cancel, htk1] at hnodeSim
    refine ⟨segs ++ [k.data], some (refLink (.mk cp2 cid2 cn2)).link,
      (refLink (.mk cp2 cid2 cn2)).total_size, specEncode (refLeaves cn2), ?_, ?_, ?_, ?_⟩
    · rw [List.take_append_of_le_length (by omega)]
      exact List.take_of_length_le (by omega)
    · simp
      omega
    · intro x hx
      rcases List.mem_append.mp hx with hx | hx
      · exact hsegs_seg x hx
      · simp only [List.mem_singleton] at hx
        rw [hx]
        exact hkseg
    · have hfillEq : fillsApplied (.cons k (.directory (.mk cp2 cid2 cn2)) rest') i Lcur =
          (fillsApplied rest' (i + 1) Lcur).set i
            (some ⟨k, (refLink (.mk cp2 cid2 cn2)).link,
              (refLink (.mk cp2 cid2 cn2)).total_size⟩) := by
        rw [fillsApplied]
        exact fillsApplied_set_comm rest' (by omega) Lcur _
      have houts : refChildrenOut (.cons k (.directory (.mk cp2 cid2 cn2)) rest') segs =
          refChildrenOut rest' segs ++
            refOutputs (.mk cp2 cid2 cn2) (segs ++ [k.data]) := by
        rw [refChildrenOut]
      rw [heq1, hnodeSim, prependOut_prependOut, ← List.map_append, hfillEq, houts]
      rfl
  | .cons k (.leaf l t) rest' =>
    rw [partitionGo_cons_leaf] at hpend
    obtain ⟨hkseg, hwfrest⟩ := wfChildren_cons_leaf hwf
    have hidsEq : childIds (.cons k (.leaf l t) rest') = childIds rest' := by rw [childIds]
    rw [hidsEq] at hids hfresh
    have hslots' : slotsNone rest' (i + 1) Lcur := hslots
    have hsim1 := simChildren rest' pid dp segs (i + 1) Lcur stash0 rest P s
      hpend hstash hpid0 hslots' hwfrest hids hfresh hpath hod htake hlen hPseg hlimit
    obtain ⟨P1, c1, t1, b1, htk1, hl1, hsg1, heq1⟩ := hsim1
    exact ⟨P1, c1, t1, b1, htk1, hl1, hsg1, heq1⟩
termination_by tList nodes
decreasing_by
  all_goals simp [tSize, tList]
  all_goals omega
end

/-- The complete run of the iterator on a well-formed tree with no block size
limit: the machine emits exactly the reference records, in order, and ends by
exhaustion (never a panic). -/
theorem sim_run (t : DirBuilder) (opts : TreeOptions) (lp : Nat)
    (hwf : wfNode t = true) (hnodup : (subtreeIds t).Nodup)
    (hlimit : opts.block_size_limit = none) :
    runAll (PostOrderIterator.new t opts lp) = ((refRun t opts).map Except.ok, false) := by
  obtain ⟨p, tid, nodes⟩ := t
  set s0 := PostOrderIterator.new (.mk p tid nodes) opts lp with hs0
  have hpend0 : s0.pending = .descentRoot (.mk p tid nodes) :: [] := rfl
  rcases hch : partition_children_leaves 0 nodes with ⟨leaves0, children⟩
  have hchGo : partitionGo 0 0 nodes = (leaves0, children) := hch
  have hch1 : (partitionGo 0 0 nodes).1 = leaves0 := by rw [hchGo]
  have hch2 : (partitionGo 0 0 nodes).2 = children := by rw [hchGo]
  have hrender0 : render_directory (refLeaves nodes) none
      = some (.ok (refLink (.mk p tid nodes), specEncode (refLeaves nodes))) := by
    rw [refLink_eq]
    exact render_directory_none_ok (refLeaves_all_some nodes)
  have hrefrun : refRun (.mk p tid nodes) opts = refChildrenOut nodes [] ++
      (if opts.wrap_with_directory then [refRecord (.mk p tid nodes) []] else []) := rfl
  by_cases hchild : children = []
  · -- leaves only at the top level
    subst hchild
    have hlv : leaves0 = refLeaves nodes := by
      have h1 := partition_leaves_of_no_frames nodes 0 (by rw [hchGo])
      rw [hch1] at h1
      exact h1
    have hchout : refChildrenOut nodes [] = [] :=
      refChildrenOut_of_no_frames nodes 0 0 [] (by rw [hchGo])
    have hstep1 := step_descentRoot_leavesE s0 [] p tid hch
    have hnext1 := next_borrowed_cons_more hpend0 hstep1
    set s1 : PostOrderIterator := { s0 with
      full_path := [], old_depth := 0,
      pending := Visited.postRoot (.direct leaves0) :: [] } with hs1
    have hinner1 : (LeafStorage.direct leaves0).into_inner s1.persisted_cids
        = some (leaves0, s1.persisted_cids) := rfl
    rw [runAll_eq_of_next_eq hnext1]
    by_cases hwrap : opts.wrap_with_directory
    · have hrender1 : render_directory leaves0 s1.opts.block_size_limit
          = some (.ok (refLink (.mk p tid nodes), specEncode (refLeaves nodes))) := by
        have hlim1 : s1.opts.block_size_limit = none := hlimit
        rw [hlv, hlim1]
        exact hrender0
      have hstep2 := step_postRoot_okE s1 [] hinner1 hwrap hrender1
      have hnext2 := next_borrowed_cons_retE s1 rfl hstep2
      rw [runAll_yield_prepend hnext2, runAll_exhausted (next_borrowed_nil rfl)]
      rw [hrefrun, hchout, if_pos hwrap]
      simp [prependOut, refRecord, refLink_eq, DirBuilder.nodes, joinSegs]
    · have hwrapF : s1.opts.wrap_with_directory = false := by
        simpa using hwrap
      have hstep2 := step_postRoot_nowrapE s1 [] hinner1 hwrapF
      have hnext2 := next_borrowed_cons_retE s1 rfl hstep2
      rw [runAll_exhausted hnext2]
      rw [hrefrun, hchout, if_neg hwrap]
      rfl
  · -- at least one subdirectory at the top level
    have hchE : children.isEmpty = false := by
      cases children with
      | nil => exact absurd rfl hchild
      | cons a b => rfl
    have hstep1 := step_descentRoot_childrenE s0 [] p tid hch hchE
    have hnext1 := next_borrowed_cons_more hpend0 hstep1
    set s1 : PostOrderIterator := { s0 with
      full_path := [], old_depth := 0,
      persisted_cids := stashInsert tid leaves0 s0.persisted_cids,
      pending := children.reverse ++ Visited.postRoot (.stashed tid) :: [] } with hs1
    have hwfC : wfChildren tid nodes = true := by
      rw [← wfNode_eq p]
      exact hwf
    have hsubt : subtreeIds (.mk p tid nodes) = tid :: childIds nodes := by
      rw [subtreeIds]
    have hidsC : (childIds nodes).Nodup := by
      rw [hsubt] at hnodup
      exact hnodup.of_cons
    have htidnotin : tid ∉ childIds nodes := by
      rw [hsubt, List.nodup_cons] at hnodup
      exact hnodup.1
    have hsim := simChildren nodes tid 0 [] 0 leaves0 []
      (Visited.postRoot (.stashed tid) :: []) [] s1
      (by
        show s1.pending = _
        rw [hs1]
        simp only []
        rw [hch2])
      (by
        show s1.persisted_cids = _
        rfl)
      rfl
      (by
        have := slotsNone_partition nodes 0 0 [] rfl
        rw [hch1] at this
        simpa using this)
      hwfC hidsC
      (by
        intro id hid
        refine ⟨?_, rfl⟩
        intro hh
        rw [hh] at hid
        exact htidnotin hid)
      rfl rfl rfl (by omega) (by intro x hx; cases hx) hlimit
    obtain ⟨P2, c2, t2, b2, _, _, _, heq2⟩ := hsim
    have hfill : fillsApplied nodes 0 leaves0 = refLeaves nodes := by
      have h1 := fillsApplied_partition nodes 0 0 [] rfl
      rw [hch1] at h1
      simpa using h1
    rw [hfill] at heq2
    set s2 : PostOrderIterator := simState s1 (Visited.postRoot (.stashed tid) :: []) tid
      (refLeaves nodes) [] P2 c2 t2 b2 with hs2
    have hinner2 : (LeafStorage.stashed tid).into_inner s2.persisted_cids
        = some (refLeaves nodes, []) := by
      show (LeafStorage.stashed tid).into_inner ((tid, refLeaves nodes) :: []) = _
      simp only [LeafStorage.into_inner, stashLookup_cons_self]
      rw [eraseKey_cons_self]
      rfl
    rw [runAll_eq_of_next_eq hnext1, heq2]
    by_cases hwrap : opts.wrap_with_directory
    · have hrender2 : render_directory (refLeaves nodes) s2.opts.block_size_limit
          = some (.ok (refLink (.mk p tid nodes), specEncode (refLeaves nodes))) := by
        have hlim2 : s2.opts.block_size_limit = none := hlimit
        rw [hlim2]
        exact hrender0
      have hwrapT : s2.opts.wrap_with_directory = true := by
        simpa using hwrap
      have hstep2 := step_postRoot_okE s2 [] hinner2 hwrapT hrender2
      have hnext2 := next_borrowed_cons_retE s2 rfl hstep2
      rw [runAll_yield_prepend hnext2, runAll_exhausted (next_borrowed_nil rfl),
        prependOut_prependOut]
      rw [hrefrun, if_pos hwrap]
      simp [prependOut, refRecord, refLink_eq, DirBuilder.nodes, joinSegs]
    · have hwrapF : s2.opts.wrap_with_directory = false := by
        simpa using hwrap
      have hstep2 := step_postRoot_nowrapE s2 [] hinner2 hwrapF
      have hnext2 := next_borrowed_cons_retE s2 rfl hstep2
      rw [runAll_exhausted hnext2]
      rw [hrefrun, if_neg hwrap]
      simp [prependOut]

/-! ## Record ordering in the reference run (support for the emission-order claims) -/

theorem refOutputs_def (D : DirBuilder) (segs : List (List Char)) :
    refOutputs D segs = refChildrenOut D.nodes segs ++ [refRecord D segs] := by
  obtain ⟨p, i, nodes⟩ := D
  rw [refOutputs]
  rfl

theorem refChildrenOut_cons_dir (k : String) (c : DirBuilder) (rest : EntryList)
    (segs : List (List Char)) :
    refChildrenOut (.cons k (.directory c) rest) segs =
      refChildrenOut rest segs ++ refOutputs c (segs ++ [k.data]) := by
  rw [refChildrenOut]

theorem refChildrenOut_cons_leaf (k : String) (l t : Nat) (rest : EntryList)
    (segs : List (List Char)) :
    refChildrenOut (.cons k (.leaf l t) rest) segs = refChildrenOut rest segs := by
  rw [refChildrenOut]

/-- Prepending further children only appends records after those of the suffix. -/
theorem refChildrenOut_append_ex (pre X : EntryList) (segs : List (List Char)) :
    ∃ a, refChildrenOut (EntryList.append pre X) segs = refChildrenOut X segs ++ a := by
  match pre with
  | .nil => exact ⟨[], by rw [EntryList.append, List.append_nil]⟩
  | .cons k (.directory c) rest =>
    obtain ⟨a, ha⟩ := refChildrenOut_append_ex rest X segs
    refine ⟨a ++ refOutputs c (segs ++ [k.data]), ?_⟩
    rw [EntryList.append, refChildrenOut_cons_dir, ha, List.append_assoc]
  | .cons k (.leaf l t) rest =>
    obtain ⟨a, ha⟩ := refChildrenOut_append_ex rest X segs
    refine ⟨a, ?_⟩
    rw [EntryList.append, refChildrenOut_cons_leaf, ha]

/-- The whole output block of a subdirectory child is an infix of its parent
directory's children records. -/
theorem childrenOut_infix_of_child {D : DirBuilder} {k : String} {C : DirBuilder}
    (h : DirChild D k C) (segs : List (List Char)) :
    ∃ x y, refChildrenOut D.nodes segs = x ++ refOutputs C (segs ++ [k.data]) ++ y := by
  obtain ⟨pre, post, hn⟩ := h
  obtain ⟨a, ha⟩ := refChildrenOut_append_ex pre (.cons k (.directory C) post) segs
  rw [hn, ha, refChildrenOut_cons_dir]
  exact ⟨refChildrenOut post segs, a, by rw [List.append_assoc]⟩

/-- Under wrapping, every subtree's output block is an infix of the full run. -/
theorem run_infix_of_subtree {t : DirBuilder} {segs : List (List Char)} {D : DirBuilder}
    (h : SubtreeAt t segs D) (opts : TreeOptions)
    (hwrap : opts.wrap_with_directory = true) :
    ∃ a b, refRun t opts = a ++ refOutputs D segs ++ b := by
  induction h with
  | refl =>
    refine ⟨[], [], ?_⟩
    rw [refRun, hwrap, refOutputs_def]
    simp
  | @child segs0 D0 k C _ hc ih =>
    obtain ⟨a, b, hab⟩ := ih
    obtain ⟨x, y, hxy⟩ := childrenOut_infix_of_child hc segs0
    refine ⟨a ++ x, y ++ refRecord D0 segs0 :: b, ?_⟩
    rw [hab, refOutputs_def D0, hxy]
    simp

/-- For any wrapping mode, every subtree's children records are an infix of the
full run. -/
theorem run_infix_children_of_subtree {t : DirBuilder} {segs : List (List Char)}
    {D : DirBuilder} (h : SubtreeAt t segs D) (opts : TreeOptions) :
    ∃ a b, refRun t opts = a ++ refChildrenOut D.nodes segs ++ b := by
  induction h with
  | refl =>
    exact ⟨[], if opts.wrap_with_directory then [refRecord t []] else [], rfl⟩
  | @child segs0 D0 k C _ hc ih =>
    obtain ⟨a, b, hab⟩ := ih
    obtain ⟨x, y, hxy⟩ := childrenOut_infix_of_child hc segs0
    refine ⟨a ++ x, refRecord C (segs0 ++ [k.data]) :: (y ++ b), ?_⟩
    rw [hab, hxy, refOutputs_def C]
    simp

theorem appearsBefore_map {α β : Type} (f : α → β) {x y : α} {L : List α}
    (h : appearsBefore x y L) : appearsBefore (f x) (f y) (L.map f) := by
  obtain ⟨l1, l2, l3, hL⟩ := h
  exact ⟨l1.map f, l2.map f, l3.map f, by simp [hL]⟩

/-! ## Exhaustive shape analysis of one loop iteration -/

/-- Every step of the loop either aborts fatally (leaving the state as it
was) or takes one of the nine explicit transitions. -/
theorem step_cases (s : PostOrderIterator) (v : Visited) (rest : List Visited) :
    (step s v rest = .ret .fatal s) ∨
    (∃ p nid nodes leaves, v = .descentRoot (.mk p nid nodes) ∧
      partition_children_leaves 0 nodes = (leaves, []) ∧
      step s v rest = .more { s with
        full_path := [], old_depth := 0,
        pending := Visited.postRoot (.direct leaves) :: rest }) ∨
    (∃ p nid nodes leaves children, v = .descentRoot (.mk p nid nodes) ∧
      partition_children_leaves 0 nodes = (leaves, children) ∧
      children.isEmpty = false ∧
      step s v rest = .more { s with
        full_path := [], old_depth := 0,
        persisted_cids := stashInsert nid leaves s.persisted_cids,
        pending := children.reverse ++ Visited.postRoot (.stashed nid) :: rest }) ∨
    (∃ pid nid nodes nm depth index fp od leaves,
      v = .descent (.mk (some pid) nid nodes) nm depth index ∧
      update_full_path s.full_path s.old_depth (some nm.data) depth = some (fp, od) ∧
      partition_children_leaves depth nodes = (leaves, []) ∧
      step s v rest = .more { s with
        full_path := fp, old_depth := od,
        pending := Visited.post pid depth nm index (.direct leaves) :: rest }) ∨
    (∃ pid nid nodes nm depth index fp od leaves children,
      v = .descent (.mk (some pid) nid nodes) nm depth index ∧
      update_full_path s.full_path s.old_depth (some nm.data) depth = some (fp, od) ∧
      partition_children_leaves depth nodes = (leaves, children) ∧
      children.isEmpty = false ∧
      step s v rest = .more { s with
        full_path := fp, old_depth := od,
        persisted_cids := stashInsert nid leaves s.persisted_cids,
        pending := children.reverse ++
          Visited.post pid depth nm index (.stashed nid) :: rest }) ∨
    (∃ pid depth nm index storage fp od lvs st1 leaf bytes vec vec2,
      v = .post pid depth nm index storage ∧
      update_full_path s.full_path s.old_depth (some nm.data) depth = some (fp, od) ∧
      LeafStorage.into_inner storage s.persisted_cids = some (lvs, st1) ∧
      render_directory lvs s.opts.block_size_limit = some (.ok (leaf, bytes)) ∧
      stashLookup pid st1 = some vec ∧
      setSlot vec index ⟨nm, leaf.link, leaf.total_size⟩ = some vec2 ∧
      step s v rest = .ret (.yield ⟨fp, leaf.link, leaf.total_size, bytes⟩)
        { s with
          full_path := fp, old_depth := od, pending := rest,
          persisted_cids := stashUpdate pid vec2 st1,
          cid := some leaf.link, total_size := leaf.total_size, block_buffer := bytes }) ∨
    (∃ pid depth nm index storage fp od lvs st1 e,
      v = .post pid depth nm index storage ∧
      update_full_path s.full_path s.old_depth (some nm.data) depth = some (fp, od) ∧
      LeafStorage.into_inner storage s.persisted_cids = some (lvs, st1) ∧
      render_directory lvs s.opts.block_size_limit = some (.error e) ∧
      step s v rest = .ret (.failed e) { s with
        full_path := fp, old_depth := od, pending := rest, persisted_cids := st1 }) ∨
    (∃ storage lvs st1, v = .postRoot storage ∧
      LeafStorage.into_inner storage s.persisted_cids = some (lvs, st1) ∧
      s.opts.wrap_with_directory = false ∧
      step s v rest = .ret .exhausted { s with
        full_path := [], old_depth := 0, pending := rest, persisted_cids := st1 }) ∨
    (∃ storage lvs st1 leaf bytes, v = .postRoot storage ∧
      LeafStorage.into_inner storage s.persisted_cids = some (lvs, st1) ∧
      s.opts.wrap_with_directory = true ∧
      render_directory lvs s.opts.block_size_limit = some (.ok (leaf, bytes)) ∧
      step s v rest = .ret (.yield ⟨[], leaf.link, leaf.total_size, bytes⟩)
        { s with
          full_path := [], old_depth := 0, pending := rest, persisted_cids := st1,
          cid := some leaf.link, total_size := leaf.total_size, block_buffer := bytes }) ∨
    (∃ storage lvs st1 e, v = .postRoot storage ∧
      LeafStorage.into_inner storage s.persisted_cids = some (lvs, st1) ∧
      s.opts.wrap_with_directory = true ∧
      render_directory lvs s.opts.block_size_limit = some (.error e) ∧
      step s v rest = .ret (.failed e) { s with
        full_path := [], old_depth := 0, pending := rest, persisted_cids := st1 }) := by
  cases v with
  | descentRoot node =>
    obtain ⟨p, nid, nodes⟩ := node
    rcases hch : partition_children_leaves 0 nodes with ⟨leaves, children⟩
    cases children with
    | nil =>
      exact .inr (.inl ⟨p, nid, nodes, leaves, rfl, hch, step_descentRoot_leaves hch⟩)
    | cons c cs =>
      exact .inr (.inr (.inl ⟨p, nid, nodes, leaves, c :: cs, rfl, hch, rfl,
        step_descentRoot_children hch rfl⟩))
  | descent node nm depth index =>
    obtain ⟨parentOpt, nid, nodes⟩ := node
    rcases hup : update_full_path s.full_path s.old_depth (some nm.data) depth with
      _ | ⟨fp, od⟩
    · exact .inl (by simp only [step, hup])
    · cases parentOpt with
      | none => exact .inl (by simp only [step, hup])
      | some pid =>
        rcases hch : partition_children_leaves depth nodes with ⟨leaves, children⟩
        cases children with
        | nil =>
          exact .inr (.inr (.inr (.inl ⟨pid, nid, nodes, nm, depth, index, fp, od,
            leaves, rfl, hup, hch, step_descent_leaves hup hch⟩)))
        | cons c cs =>
          exact .inr (.inr (.inr (.inr (.inl ⟨pid, nid, nodes, nm, depth, index, fp, od,
            leaves, c :: cs, rfl, hup, hch, rfl, step_descent_children hup hch rfl⟩))))
  | post pid depth nm index storage =>
    rcases hup : update_full_path s.full_path s.old_depth (some nm.data) depth with
      _ | ⟨fp, od⟩
    · exact .inl (by simp only [step, hup])
    · rcases hin : LeafStorage.into_inner storage s.persisted_cids with _ | ⟨lvs, st1⟩
      · exact .inl (by simp only [step, hup, hin])
      · rcases hr : render_directory lvs s.opts.block_size_limit with _ | r
        · exact .inl (by simp only [step, hup, hin, hr])
        · cases r with
          | error e =>
            exact .inr (.inr (.inr (.inr (.inr (.inr (.inl ⟨pid, depth, nm, index,
              storage, fp, od, lvs, st1, e, rfl, hup, hin, hr,
              step_post_err hup hin hr⟩))))))
          | ok lb =>
            obtain ⟨leaf, bytes⟩ := lb
            rcases hlk : stashLookup pid st1 with _ | vec
            · exact .inl (by simp only [step, hup, hin, hr, hlk])
            · rcases hsl : setSlot vec index ⟨nm, leaf.link, leaf.total_size⟩ with _ | vec2
              · exact .inl (by simp only [step, hup, hin, hr, hlk, hsl])
              · exact .inr (.inr (.inr (.inr (.inr (.inl ⟨pid, depth, nm, index,
                  storage, fp, od, lvs, st1, leaf, bytes, vec, vec2, rfl, hup, hin, hr,
                  hlk, hsl, step_post_ok hup hin hr hlk hsl⟩)))))
  | postRoot storage =>
    rcases hin : LeafStorage.into_inner storage s.persisted_cids with _ | ⟨lvs, st1⟩
    · exact .inl (by simp only [step, update_root, hin])
    · rcases Bool.eq_false_or_eq_true s.opts.wrap_with_directory with hw | hw
      case inr =>
        exact .inr (.inr (.inr (.inr (.inr (.inr (.inr (.inl ⟨storage, lvs, st1, rfl,
          hin, hw, step_postRoot_nowrap hin hw⟩)))))))
      case inl =>
        rcases hr : render_directory lvs s.opts.block_size_limit with _ | r
        · exact .inl (by simp [step, update_root, hin, hw, hr])
        · cases r with
          | error e =>
            exact .inr (.inr (.inr (.inr (.inr (.inr (.inr (.inr (.inr ⟨storage, lvs,
              st1, e, rfl, hin, hw, hr, step_postRoot_err hin hw hr⟩))))))))
          | ok lb =>
            obtain ⟨leaf, bytes⟩ := lb
            exact .inr (.inr (.inr (.inr (.inr (.inr (.inr (.inr (.inl ⟨storage, lvs,
              st1, leaf, bytes, rfl, hin, hw, hr, step_postRoot_ok hin hw hr⟩))))))))

/-! ## Root frames stay at the bottom of the stack -/

theorem dropLast_append_ne {α : Type} (front rest : List α) (h : rest ≠ []) :
    (front ++ rest).dropLast = front ++ rest.dropLast := by
  induction front with
  | nil => rfl
  | cons a fr ih =>
    have hne : fr ++ rest ≠ [] := by simp [h]
    cases hfr : fr ++ rest with
    | nil => exact absurd hfr hne
    | cons b l =>
      calc ((a :: fr) ++ rest).dropLast
          = (a :: b :: l).dropLast := by rw [List.cons_append, hfr]
        _ = a :: (b :: l).dropLast := rfl
        _ = a :: (fr ++ rest).dropLast := by rw [hfr]
        _ = a :: (fr ++ rest.dropLast) := by rw [ih]
        _ = (a :: fr) ++ rest.dropLast := rfl

theorem mem_dropLast_sub {α : Type} {x : α} {l : List α} (h : x ∈ l.dropLast) : x ∈ l :=
  (List.dropLast_sublist l).subset h

/-- The descend frames cut out of a children list: they carry exactly the
subtree ids below the list, reference no stash key, and none is a root
frame. -/
theorem partitionGo_frames (depth i : Nat) (el : EntryList) :
    (partitionGo depth i el).2.flatMap frameIds = childIds el ∧
    (partitionGo depth i el).2.filterMap frameStashRef = [] ∧
    ∀ v ∈ (partitionGo depth i el).2, ¬ isRootFrame v := by
  match el with
  | .nil =>
    refine ⟨rfl, rfl, ?_⟩
    intro v hv
    simp [partitionGo_nil] at hv
  | .cons k (.directory c) rest =>
    obtain ⟨h1, h2, h3⟩ := partitionGo_frames depth (i + 1) rest
    rw [partitionGo_cons_dir]
    refine ⟨?_, ?_, ?_⟩
    · simp only [List.flatMap_cons, h1, frameIds, childIds]
    · simp only [List.filterMap_cons, frameStashRef, h2]
    · intro v hv
      rcases List.mem_cons.mp hv with hv | hv
      · subst hv
        simp [isRootFrame]
      · exact h3 v hv
  | .cons k (.leaf l t) rest =>
    obtain ⟨h1, h2, h3⟩ := partitionGo_frames depth (i + 1) rest
    rw [partitionGo_cons_leaf]
    exact ⟨by simp only [h1, childIds], h2, h3⟩

theorem rootBottom_cons {s : PostOrderIterator} {v : Visited} {rest : List Visited}
    (hp : s.pending = v :: rest) (hrb : rootBottom s) :
    (∀ x ∈ rest.dropLast, ¬ isRootFrame x) ∧ (rest ≠ [] → ¬ isRootFrame v) := by
  rw [rootBottom, hp] at hrb
  cases rest with
  | nil =>
    refine ⟨?_, fun hc => absurd rfl hc⟩
    intro x hx
    simp at hx
  | cons b l =>
    have hd : (v :: b :: l).dropLast = v :: (b :: l).dropLast := rfl
    rw [hd] at hrb
    exact ⟨fun x hx => hrb x (List.mem_cons_of_mem _ hx),
      fun _ => hrb v (List.mem_cons_self _ _)⟩

theorem rest_nil_of_root {s : PostOrderIterator} {v : Visited} {rest : List Visited}
    (hp : s.pending = v :: rest) (hrb : rootBottom s) (hroot : isRootFrame v) :
    rest = [] := by
  cases rest with
  | nil => rfl
  | cons b l => exact absurd hroot ((rootBottom_cons hp hrb).2 (by simp))

theorem rootBottom_front {front rest : List Visited}
    (hfront : ∀ x ∈ front, ¬ isRootFrame x)
    (hrest : ∀ x ∈ rest.dropLast, ¬ isRootFrame x) :
    ∀ x ∈ (front ++ rest).dropLast, ¬ isRootFrame x := by
  cases hr : rest with
  | nil =>
    subst hr
    rw [List.append_nil]
    exact fun x hx => hfront x (mem_dropLast_sub hx)
  | cons b l =>
    subst hr
    rw [dropLast_append_ne front (b :: l) (by simp)]
    intro x hx
    rcases List.mem_append.mp hx with h1 | h2
    · exact hfront x h1
    · exact hrest x h2

/-- One loop iteration keeps root frames at the bottom of the stack. -/
theorem step_rootBottom {s : PostOrderIterator} {v : Visited} {rest : List Visited}
    (hp : s.pending = v :: rest) (hrb : rootBottom s) :
    rootBottom (step s v rest).state := by
  obtain ⟨hrest, _⟩ := rootBottom_cons hp hrb
  rcases step_cases s v rest with hc | hc | hc | hc | hc | hc | hc | hc | hc | hc
  · rw [hc]
    exact hrb
  · obtain ⟨p, nid, nodes, leaves, hv, hch, hstep⟩ := hc
    have hrnil : rest = [] := rest_nil_of_root hp hrb (by rw [hv]; trivial)
    subst hrnil
    rw [hstep]
    intro x hx
    simp [StepRes.state] at hx
  · obtain ⟨p, nid, nodes, leaves, children, hv, hch, hne, hstep⟩ := hc
    have hrnil : rest = [] := rest_nil_of_root hp hrb (by rw [hv]; trivial)
    subst hrnil
    have hchGo : partitionGo 0 0 nodes = (leaves, children) := hch
    have hch2 : (partitionGo 0 0 nodes).2 = children := by rw [hchGo]
    rw [hstep]
    intro x hx
    simp only [StepRes.state] at hx
    have hdl : (children.reverse ++ [Visited.postRoot (.stashed nid)]).dropLast
        = children.reverse := by
      rw [dropLast_append_ne _ _ (by simp)]
      simp
    rw [hdl] at hx
    have hx2 : x ∈ children := List.mem_reverse.mp hx
    refine (partitionGo_frames 0 0 nodes).2.2 x ?_
    rw [hch2]
    exact hx2
  · obtain ⟨pid, nid, nodes, nm, depth, index, fp, od, leaves, hv, hup, hch, hstep⟩ := hc
    rw [hstep]
    intro x hx
    simp only [StepRes.state] at hx
    have hfr : ∀ y ∈ [Visited.post pid depth nm index (LeafStorage.direct leaves)],
        ¬ isRootFrame y := by
      intro y hy
      rcases List.mem_singleton.mp hy with rfl
      simp [isRootFrame]
    exact rootBottom_front hfr hrest x hx
  · obtain ⟨pid, nid, nodes, nm, depth, index, fp, od, leaves, children, hv, hup, hch,
      hne, hstep⟩ := hc
    have hchGo : partitionGo depth 0 nodes = (leaves, children) := hch
    have hch2 : (partitionGo depth 0 nodes).2 = children := by rw [hchGo]
    rw [hstep]
    intro x hx
    simp only [StepRes.state] at hx
    have hsplit : children.reverse ++ Visited.post pid depth nm index (.stashed nid) :: rest
        = (children.reverse ++ [Visited.post pid depth nm index (.stashed nid)]) ++ rest := by
      simp
    rw [hsplit] at hx
    refine rootBottom_front ?_ hrest x hx
    intro y hy
    rcases List.mem_append.mp hy with h1 | h1
    · refine (partitionGo_frames depth 0 nodes).2.2 y ?_
      rw [hch2]
      exact List.mem_reverse.mp h1
    · rcases List.mem_singleton.mp h1 with rfl
      simp [isRootFrame]
  · obtain ⟨pid, depth, nm, index, storage, fp, od, lvs, st1, leaf, bytes, vec, vec2,
      hv, hup, hin, hr, hlk, hsl, hstep⟩ := hc
    rw [hstep]
    exact hrest
  · obtain ⟨pid, depth, nm, index, storage, fp, od, lvs, st1, e, hv, hup, hin, hr,
      hstep⟩ := hc
    rw [hstep]
    exact hrest
  · obtain ⟨storage, lvs, st1, hv, hin, hw, hstep⟩ := hc
    rw [hstep]
    exact hrest
  · obtain ⟨storage, lvs, st1, leaf, bytes, hv, hin, hw, hr, hstep⟩ := hc
    rw [hstep]
    exact hrest
  · obtain ⟨storage, lvs, st1, e, hv, hin, hw, hr, hstep⟩ := hc
    rw [hstep]
    exact hrest

theorem nextFuel_rootBottom (n : Nat) (s : PostOrderIterator) (hrb : rootBottom s) :
    rootBottom (nextFuel n s).2 := by
  induction n generalizing s with
  | zero => exact hrb
  | succ n ih =>
    rcases hp : s.pending with _ | ⟨v, rest⟩
    · simp only [nextFuel, hp]
      exact hrb
    · have hstep := step_rootBottom hp hrb
      rcases hs : step s v rest with ⟨s1⟩ | ⟨r, s1⟩
      · simp only [nextFuel, hp, hs]
        rw [hs] at hstep
        exact ih s1 hstep
      · simp only [nextFuel, hp, hs]
        rw [hs] at hstep
        exact hstep

theorem next_rootBottom {s : PostOrderIterator} (hrb : rootBottom s) :
    rootBottom (next_borrowed s).2 := by
  rw [← nextFuel_eq (pendingMeasure s.pending + 1) s (Nat.lt_succ_self _)]
  exact nextFuel_rootBottom _ s hrb

theorem reaches_rootBottom {s0 s : PostOrderIterator} (h : Reaches s0 s)
    (hrb : rootBottom s0) : rootBottom s := by
  induction h with
  | refl => exact hrb
  | next _ ih => exact next_rootBottom ih

/-- The only step returning `exhausted` handles a root frame, and it moves to
the remaining stack. -/
theorem step_exhausted_shape {s : PostOrderIterator} {v : Visited} {rest : List Visited}
    {s1 : PostOrderIterator} (h : step s v rest = .ret .exhausted s1) :
    isRootFrame v ∧ s1.pending = rest := by
  rcases step_cases s v rest with hc | hc | hc | hc | hc | hc | hc | hc | hc | hc
  · rw [hc] at h
    simp at h
  · obtain ⟨p, nid, nodes, leaves, hv, hch, hstep⟩ := hc
    rw [hstep] at h
    simp at h
  · obtain ⟨p, nid, nodes, leaves, children, hv, hch, hne, hstep⟩ := hc
    rw [hstep] at h
    simp at h
  · obtain ⟨pid, nid, nodes, nm, depth, index, fp, od, leaves, hv, hup, hch, hstep⟩ := hc
    rw [hstep] at h
    simp at h
  · obtain ⟨pid, nid, nodes, nm, depth, index, fp, od, leaves, children, hv, hup, hch,
      hne, hstep⟩ := hc
    rw [hstep] at h
    simp at h
  · obtain ⟨pid, depth, nm, index, storage, fp, od, lvs, st1, leaf, bytes, vec, vec2,
      hv, hup, hin, hr, hlk, hsl, hstep⟩ := hc
    rw [hstep] at h
    simp at h
  · obtain ⟨pid, depth, nm, index, storage, fp, od, lvs, st1, e, hv, hup, hin, hr,
      hstep⟩ := hc
    rw [hstep] at h
    simp at h
  · obtain ⟨storage, lvs, st1, hv, hin, hw, hstep⟩ := hc
    rw [hstep] at h
    injection h with h1 h2
    subst h2
    exact ⟨by rw [hv]; trivial, rfl⟩
  · obtain ⟨storage, lvs, st1, leaf, bytes, hv, hin, hw, hr, hstep⟩ := hc
    rw [hstep] at h
    simp at h
  · obtain ⟨storage, lvs, st1, e, hv, hin, hw, hr, hstep⟩ := hc
    rw [hstep] at h
    simp at h

theorem nextFuel_exhausted_pending (n : Nat) (s : PostOrderIterator) (hrb : rootBottom s)
    (h : (nextFuel n s).1 = .exhausted) : (nextFuel n s).2.pending = [] := by
  induction n generalizing s with
  | zero => simp [nextFuel] at h
  | succ n ih =>
    rcases hp : s.pending with _ | ⟨v, rest⟩
    · simp only [nextFuel, hp]
    · rcases hs : step s v rest with ⟨s1⟩ | ⟨r, s1⟩
      · have h1 : nextFuel (n + 1) s = nextFuel n s1 := by simp only [nextFuel, hp, hs]
        rw [h1] at h ⊢
        have hstep := step_rootBottom hp hrb
        rw [hs] at hstep
        exact ih s1 hstep h
      · have h1 : nextFuel (n + 1) s = (r, s1) := by simp only [nextFuel, hp, hs]
        rw [h1] at h ⊢
        cases r with
        | yield t => simp at h
        | failed e => simp at h
        | fatal => simp at h
        | exhausted =>
          obtain ⟨hroot, hpend⟩ := step_exhausted_shape hs
          rw [hpend]
          exact rest_nil_of_root hp hrb hroot

theorem next_exhausted_pending {s : PostOrderIterator} (hrb : rootBottom s)
    (h : (next_borrowed s).1 = .exhausted) : (next_borrowed s).2.pending = [] := by
  rw [← nextFuel_eq (pendingMeasure s.pending + 1) s (Nat.lt_succ_self _)] at h ⊢
  exact nextFuel_exhausted_pending _ s hrb h

theorem reaches_pending_nil {s s2 : PostOrderIterator} (h : s.pending = [])
    (hr : Reaches s s2) : s2 = s := by
  induction hr with
  | refl => rfl
  | next _ ih =>
    rw [ih, next_borrowed_nil h]

/-! ## The stash-consistency invariant -/

theorem stashLookup_insert_isSome (id nid : Nat) (v : Leaves) (st : Stash) :
    (stashLookup id (stashInsert nid v st)).isSome = true ↔
      id = nid ∨ (stashLookup id st).isSome = true := by
  by_cases h : id = nid
  · subst h
    simp [stashLookup_stashInsert_self]
  · rw [stashLookup_stashInsert_ne h]
    simp [h]

theorem stashLookup_erase_isSome (id sid : Nat) (st : Stash) :
    (stashLookup id (eraseKey sid st)).isSome = true ↔
      id ≠ sid ∧ (stashLookup id st).isSome = true := by
  by_cases h : id = sid
  · subst h
    simp [stashLookup_eraseKey_self]
  · rw [stashLookup_eraseKey_ne h]
    simp [h]

theorem stashLookup_update_isSome (id pid : Nat) (v : Leaves) (st : Stash) :
    (stashLookup id (stashUpdate pid v st)).isSome = true ↔
      (stashLookup id st).isSome = true := by
  by_cases h : id = pid
  · subst h
    rcases hl : stashLookup id st with _ | w
    · rw [stashUpdate_of_lookup_none hl, hl]
    · rw [stashLookup_stashUpdate_self hl]
      simp
  · rw [stashLookup_stashUpdate_ne h]

theorem pendRefs_cons_none {v : Visited} (h : frameStashRef v = none) (l : List Visited) :
    pendRefs (v :: l) = pendRefs l := by
  simp [pendRefs, h]

theorem pendRefs_cons_some {v : Visited} {id : Nat} (h : frameStashRef v = some id)
    (l : List Visited) : pendRefs (v :: l) = id :: pendRefs l := by
  simp [pendRefs, h]

theorem pendRefs_append (a b : List Visited) : pendRefs (a ++ b) = pendRefs a ++ pendRefs b := by
  simp [pendRefs]

theorem pendIds_cons (v : Visited) (l : List Visited) :
    pendIds (v :: l) = frameIds v ++ pendIds l := by
  simp [pendIds]

theorem pendIds_append (a b : List Visited) : pendIds (a ++ b) = pendIds a ++ pendIds b := by
  simp [pendIds]

theorem pendRefs_reverse_nil {l : List Visited} (h : pendRefs l = []) :
    pendRefs l.reverse = [] := by
  have hperm : List.Perm (pendRefs l.reverse) (pendRefs l) :=
    (List.reverse_perm l).filterMap frameStashRef
  rw [h] at hperm
  exact List.Perm.eq_nil hperm

theorem pendIds_reverse_perm (l : List Visited) :
    List.Perm (pendIds l.reverse) (pendIds l) := by
  induction l with
  | nil => exact List.Perm.refl _
  | cons v rest ih =>
    have h1 : pendIds ((v :: rest).reverse) = pendIds rest.reverse ++ frameIds v := by
      rw [List.reverse_cons, pendIds_append]
      simp [pendIds]
    rw [h1, pendIds_cons]
    exact List.perm_append_comm.trans (ih.append_left (frameIds v))

theorem nodup_shuffle {A A' P R : List Nat} {n : Nat} (hA : List.Perm A' A)
    (h : (((n :: A) ++ P) ++ R).Nodup) : ((A' ++ P) ++ (n :: R)).Nodup := by
  have h1 : List.Perm ((A' ++ P) ++ (n :: R)) (n :: ((A ++ P) ++ R)) :=
    List.Perm.trans List.perm_middle (((hA.append_right P).append_right R).cons n)
  have h2 : ((n :: A) ++ P) ++ R = n :: ((A ++ P) ++ R) := by simp
  rw [h2] at h
  exact h1.symm.nodup h

theorem nodup_drop_front {I P R : List Nat} (h : ((I ++ P) ++ R).Nodup) :
    (P ++ R).Nodup := by
  have hs : (P ++ R).Sublist ((I ++ P) ++ R) := by
    rw [List.append_assoc]
    exact List.sublist_append_right I (P ++ R)
  exact List.Nodup.sublist hs h

theorem nodup_drop_mid {P R : List Nat} {n : Nat} (h : (P ++ (n :: R)).Nodup) :
    (P ++ R).Nodup ∧ n ∉ R := by
  rcases List.nodup_append.mp h with ⟨h1, h2, h3⟩
  rcases List.nodup_cons.mp h2 with ⟨h4, h5⟩
  refine ⟨List.nodup_append.mpr ⟨h1, h5, ?_⟩, h4⟩
  intro a ha hc
  exact h3 ha (List.mem_cons_of_mem _ hc)

theorem pendRefs_cons_post (pid d : Nat) (nm : String) (i : Nat) (storage : LeafStorage)
    (l : List Visited) :
    pendRefs (.post pid d nm i storage :: l) = storage.refList ++ pendRefs l := by
  cases storage <;> simp [pendRefs, frameStashRef, LeafStorage.refList]

theorem pendRefs_cons_postRoot (storage : LeafStorage) (l : List Visited) :
    pendRefs (.postRoot storage :: l) = storage.refList ++ pendRefs l := by
  cases storage <;> simp [pendRefs, frameStashRef, LeafStorage.refList]

theorem pendRefs_cons_descentRoot (n : DirBuilder) (l : List Visited) :
    pendRefs (.descentRoot n :: l) = pendRefs l := by
  simp [pendRefs, frameStashRef]

theorem pendRefs_cons_descent (n : DirBuilder) (nm : String) (d i : Nat)
    (l : List Visited) :
    pendRefs (.descent n nm d i :: l) = pendRefs l := by
  simp [pendRefs, frameStashRef]

/-- Resolving a storage (taking the leaves out) drops exactly its stash
reference: the key/reference correspondence and distinctness survive. -/
theorem inv_resolve {st : Stash} {storage : LeafStorage} {lvs : Leaves} {st1 : Stash}
    {P R : List Nat}
    (hin : LeafStorage.into_inner storage st = some (lvs, st1))
    (hA : ∀ id, (stashLookup id st).isSome = true ↔ id ∈ storage.refList ++ R)
    (hB : (P ++ (storage.refList ++ R)).Nodup) :
    (∀ id, (stashLookup id st1).isSome = true ↔ id ∈ R) ∧ (P ++ R).Nodup := by
  cases storage with
  | direct l =>
    have h1 : st1 = st := by
      simp [LeafStorage.into_inner] at hin
      exact hin.2.symm
    subst h1
    refine ⟨fun id => ?_, ?_⟩
    · simpa [LeafStorage.refList] using hA id
    · simpa [LeafStorage.refList] using hB
  | stashed sid =>
    rcases hl : stashLookup sid st with _ | w
    · rw [LeafStorage.into_inner, hl] at hin
      cases hin
    · have h1 : st1 = eraseKey sid st := by
        rw [LeafStorage.into_inner, hl] at hin
        simp at hin
        exact hin.2.symm
      subst h1
      obtain ⟨hPR, hsid⟩ := nodup_drop_mid (by simpa [LeafStorage.refList] using hB)
      refine ⟨fun id => ?_, hPR⟩
      rw [stashLookup_erase_isSome]
      constructor
      · rintro ⟨hne, hmem⟩
        rcases List.mem_append.mp ((hA id).mp hmem) with h2 | h2
        · rcases List.mem_singleton.mp h2 with rfl
          exact absurd rfl hne
        · exact h2
      · intro hm
        refine ⟨fun heq => hsid (heq ▸ hm), (hA id).mpr ?_⟩
        exact List.mem_append_right _ hm

theorem setSlot_some_inv {L : Leaves} {i : Nat} {v : NamedLeaf} {L2 : Leaves}
    (h : setSlot L i v = some L2) : L[i]? = some none := by
  rcases hL : L[i]? with _ | o
  · rw [setSlot, hL] at h
    cases h
  · cases o with
    | none => rfl
    | some x =>
      rw [setSlot, hL] at h
      cases h

/-- One loop iteration preserves the stash-consistency invariant. -/
theorem step_inv {s : PostOrderIterator} {v : Visited} {rest : List Visited}
    (hp : s.pending = v :: rest) (hinv : Inv s) : Inv (step s v rest).state := by
  rcases step_cases s v rest with hc | hc | hc | hc | hc | hc | hc | hc | hc | hc
  · rw [hc]
    exact hinv
  · obtain ⟨p, nid, nodes, leaves, hv, hch, hstep⟩ := hc
    subst hv
    obtain ⟨hA, hB⟩ := hinv
    rw [hp] at hA hB
    rw [hstep]
    refine ⟨fun id => ?_, ?_⟩
    · show (stashLookup id s.persisted_cids).isSome = true ↔
        id ∈ pendRefs (Visited.postRoot (.direct leaves) :: rest)
      rw [pendRefs_cons_postRoot]
      have h1 := hA id
      rw [pendRefs_cons_descentRoot] at h1
      simpa [LeafStorage.refList] using h1
    · show (pendIds (Visited.postRoot (.direct leaves) :: rest) ++
        pendRefs (Visited.postRoot (.direct leaves) :: rest)).Nodup
      rw [pendIds_cons, pendRefs_cons_postRoot]
      rw [pendIds_cons, pendRefs_cons_descentRoot] at hB
      simp only [frameIds, LeafStorage.refList, List.nil_append] at hB ⊢
      exact nodup_drop_front hB
  · obtain ⟨p, nid, nodes, leaves, children, hv, hch, hne, hstep⟩ := hc
    subst hv
    obtain ⟨hA, hB⟩ := hinv
    rw [hp] at hA hB
    have hchGo : partitionGo 0 0 nodes = (leaves, children) := hch
    have hIds : pendIds children = childIds nodes := by
      have h1 := (partitionGo_frames 0 0 nodes).1
      rw [hchGo] at h1
      simpa [pendIds] using h1
    have hRefs : pendRefs children = [] := by
      have h1 := (partitionGo_frames 0 0 nodes).2.1
      rw [hchGo] at h1
      simpa [pendRefs] using h1
    rw [hstep]
    refine ⟨fun id => ?_, ?_⟩
    · show (stashLookup id (stashInsert nid leaves s.persisted_cids)).isSome = true ↔
        id ∈ pendRefs (children.reverse ++ Visited.postRoot (.stashed nid) :: rest)
      rw [pendRefs_append, pendRefs_reverse_nil hRefs, pendRefs_cons_postRoot,
        stashLookup_insert_isSome]
      have h1 := hA id
      rw [pendRefs_cons_descentRoot] at h1
      simp [LeafStorage.refList, h1]
    · show (pendIds (children.reverse ++ Visited.postRoot (.stashed nid) :: rest) ++
        pendRefs (children.reverse ++ Visited.postRoot (.stashed nid) :: rest)).Nodup
      rw [pendIds_append, pendRefs_append, pendIds_cons, pendRefs_cons_postRoot,
        pendRefs_reverse_nil hRefs]
      rw [pendIds_cons, pendRefs_cons_descentRoot] at hB
      simp only [frameIds, LeafStorage.refList, List.nil_append] at hB ⊢
      rw [subtreeIds] at hB
      have hA2 : List.Perm (pendIds children.reverse) (childIds nodes) := by
        have h2 := pendIds_reverse_perm children
        rw [hIds] at h2
        exact h2
      exact nodup_shuffle hA2 hB
  · obtain ⟨pid, nid, nodes, nm, depth, index, fp, od, leaves, hv, hup, hch, hstep⟩ := hc
    subst hv
    obtain ⟨hA, hB⟩ := hinv
    rw [hp] at hA hB
    rw [hstep]
    refine ⟨fun id => ?_, ?_⟩
    · show (stashLookup id s.persisted_cids).isSome = true ↔
        id ∈ pendRefs (Visited.post pid depth nm index (.direct leaves) :: rest)
      rw [pendRefs_cons_post]
      have h1 := hA id
      rw [pendRefs_cons_descent] at h1
      simpa [LeafStorage.refList] using h1
    · show (pendIds (Visited.post pid depth nm index (.direct leaves) :: rest) ++
        pendRefs (Visited.post pid depth nm index (.direct leaves) :: rest)).Nodup
      rw [pendIds_cons, pendRefs_cons_post]
      rw [pendIds_cons, pendRefs_cons_descent] at hB
      simp only [frameIds, LeafStorage.refList, List.nil_append] at hB ⊢
      exact nodup_drop_front hB
  · obtain ⟨pid, nid, nodes, nm, depth, index, fp, od, leaves, children, hv, hup, hch,
      hne, hstep⟩ := hc
    subst hv
    obtain ⟨hA, hB⟩ := hinv
    rw [hp] at hA hB
    have hchGo : partitionGo depth 0 nodes = (leaves, children) := hch
    have hIds : pendIds children = childIds nodes := by
      have h1 := (partitionGo_frames depth 0 nodes).1
      rw [hchGo] at h1
      simpa [pendIds] using h1
    have hRefs : pendRefs children = [] := by
      have h1 := (partitionGo_frames depth 0 nodes).2.1
      rw [hchGo] at h1
      simpa [pendRefs] using h1
    rw [hstep]
    refine ⟨fun id => ?_, ?_⟩
    · show (stashLookup id (stashInsert nid leaves s.persisted_cids)).isSome = true ↔
        id ∈ pendRefs (children.reverse ++
          Visited.post pid depth nm index (.stashed nid) :: rest)
      rw [pendRefs_append, pendRefs_reverse_nil hRefs, pendRefs_cons_post,
        stashLookup_insert_isSome]
      have h1 := hA id
      rw [pendRefs_cons_descent] at h1
      simp [LeafStorage.refList, h1]
    · show (pendIds (children.reverse ++
          Visited.post pid depth nm index (.stashed nid) :: rest) ++
        pendRefs (children.reverse ++
          Visited.post pid depth nm index (.stashed nid) :: rest)).Nodup
      rw [pendIds_append, pendRefs_append, pendIds_cons, pendRefs_cons_post,
        pendRefs_reverse_nil hRefs]
      rw [pendIds_cons, pendRefs_cons_descent] at hB
      simp only [frameIds, LeafStorage.refList, List.nil_append] at hB ⊢
      rw [subtreeIds] at hB
      have hA2 : List.Perm (pendIds children.reverse) (childIds nodes) := by
        have h2 := pendIds_reverse_perm children
        rw [hIds] at h2
        exact h2
      exact nodup_shuffle hA2 hB
  · obtain ⟨pid, depth, nm, index, storage, fp, od, lvs, st1, leaf, bytes, vec, vec2,
      hv, hup, hin, hr, hlk, hsl, hstep⟩ := hc
    subst hv
    obtain ⟨hA, hB⟩ := hinv
    rw [hp] at hA hB
    rw [pendIds_cons, pendRefs_cons_post] at hB
    simp only [frameIds, List.nil_append] at hB
    have hA2 : ∀ id, (stashLookup id s.persisted_cids).isSome = true ↔
        id ∈ storage.refList ++ pendRefs rest := by
      intro id
      have h1 := hA id
      rw [pendRefs_cons_post] at h1
      exact h1
    have hres := inv_resolve hin hA2 hB
    rw [hstep]
    refine ⟨fun id => ?_, ?_⟩
    · show (stashLookup id (stashUpdate pid vec2 st1)).isSome = true ↔ id ∈ pendRefs rest
      rw [stashLookup_update_isSome]
      exact hres.1 id
    · show (pendIds rest ++ pendRefs rest).Nodup
      exact hres.2
  · obtain ⟨pid, depth, nm, index, storage, fp, od, lvs, st1, e, hv, hup, hin, hr,
      hstep⟩ := hc
    subst hv
    obtain ⟨hA, hB⟩ := hinv
    rw [hp] at hA hB
    rw [pendIds_cons, pendRefs_cons_post] at hB
    simp only [frameIds, List.nil_append] at hB
    have hA2 : ∀ id, (stashLookup id s.persisted_cids).isSome = true ↔
        id ∈ storage.refList ++ pendRefs rest := by
      intro id
      have h1 := hA id
      rw [pendRefs_cons_post] at h1
      exact h1
    have hres := inv_resolve hin hA2 hB
    rw [hstep]
    exact ⟨hres.1, hres.2⟩
  · obtain ⟨storage, lvs, st1, hv, hin, hw, hstep⟩ := hc
    subst hv
    obtain ⟨hA, hB⟩ := hinv
    rw [hp] at hA hB
    rw [pendIds_cons, pendRefs_cons_postRoot] at hB
    simp only [frameIds, List.nil_append] at hB
    have hA2 : ∀ id, (stashLookup id s.persisted_cids).isSome = true ↔
        id ∈ storage.refList ++ pendRefs rest := by
      intro id
      have h1 := hA id
      rw [pendRefs_cons_postRoot] at h1
      exact h1
    have hres := inv_resolve hin hA2 hB
    rw [hstep]
    exact ⟨hres.1, hres.2⟩
  · obtain ⟨storage, lvs, st1, leaf, bytes, hv, hin, hw, hr, hstep⟩ := hc
    subst hv
    obtain ⟨hA, hB⟩ := hinv
    rw [hp] at hA hB
    rw [pendIds_cons, pendRefs_cons_postRoot] at hB
    simp only [frameIds, List.nil_append] at hB
    have hA2 : ∀ id, (stashLookup id s.persisted_cids).isSome = true ↔
        id ∈ storage.refList ++ pendRefs rest := by
      intro id
      have h1 := hA id
      rw [pendRefs_cons_postRoot] at h1
      exact h1
    have hres := inv_resolve hin hA2 hB
    rw [hstep]
    exact ⟨hres.1, hres.2⟩
  · obtain ⟨storage, lvs, st1, e, hv, hin, hw, hr, hstep⟩ := hc
    subst hv
    obtain ⟨hA, hB⟩ := hinv
    rw [hp] at hA hB
    rw [pendIds_cons, pendRefs_cons_postRoot] at hB
    simp only [frameIds, List.nil_append] at hB
    have hA2 : ∀ id, (stashLookup id s.persisted_cids).isSome = true ↔
        id ∈ storage.refList ++ pendRefs rest := by
      intro id
      have h1 := hA id
      rw [pendRefs_cons_postRoot] at h1
      exact h1
    have hres := inv_resolve hin hA2 hB
    rw [hstep]
    exact ⟨hres.1, hres.2⟩

theorem nextFuel_inv (n : Nat) (s : PostOrderIterator) (hinv : Inv s) :
    Inv (nextFuel n s).2 := by
  induction n generalizing s with
  | zero => exact hinv
  | succ n ih =>
    rcases hp : s.pending with _ | ⟨v, rest⟩
    · simp only [nextFuel, hp]
      exact hinv
    · have hstep := step_inv hp hinv
      rcases hs : step s v rest with ⟨s1⟩ | ⟨r, s1⟩
      · simp only [nextFuel, hp, hs]
        rw [hs] at hstep
        exact ih s1 hstep
      · simp only [nextFuel, hp, hs]
        rw [hs] at hstep
        exact hstep

theorem next_inv {s : PostOrderIterator} (hinv : Inv s) : Inv (next_borrowed s).2 := by
  rw [← nextFuel_eq (pendingMeasure s.pending + 1) s (Nat.lt_succ_self _)]
  exact nextFuel_inv _ s hinv

theorem reaches_inv {s0 s : PostOrderIterator} (h : Reaches s0 s) (hinv : Inv s0) :
    Inv s := by
  induction h with
  | refl => exact hinv
  | next _ ih => exact next_inv ih

theorem new_inv (t : DirBuilder) (opts : TreeOptions) (lp : Nat)
    (hnodup : (subtreeIds t).Nodup) : Inv (PostOrderIterator.new t opts lp) := by
  refine ⟨fun id => ?_, ?_⟩
  · show (stashLookup id []).isSome = true ↔ id ∈ pendRefs [Visited.descentRoot t]
    simp [stashLookup, pendRefs, frameStashRef]
  · show (pendIds [Visited.descentRoot t] ++ pendRefs [Visited.descentRoot t]).Nodup
    simp only [pendIds, pendRefs, List.flatMap_cons, List.flatMap_nil, frameIds,
      List.filterMap_cons, List.filterMap_nil, frameStashRef, List.append_nil]
    exact hnodup

theorem render_directory_none_eq (links : Leaves) :
    render_directory links none = render_directory.renderBody links := rfl

theorem render_directory_some_eq (links : Leaves) (l : Nat) :
    render_directory links (some l) =
      if l < specGetSize links then some (.error (.tooLargeBlock (specGetSize links)))
      else render_directory.renderBody links := rfl

/-! ## The claims -/

/-- C9: determinism: for a fixed input tree and fixed options, two complete
runs of the iterator produce identical output sequences — the same records
with the same paths, content ids, cumulative sizes and block bytes in the
same order (and the same end-of-run mode); the buffer-sizing hint passed to
the constructor has no observable effect either. -/
theorem run_deterministic (t : DirBuilder) (opts : TreeOptions) (lp1 lp2 : Nat) :
    runAll (PostOrderIterator.new t opts lp1) =
      runAll (PostOrderIterator.new t opts lp2) := rfl

/-- C2: for a fully-filled link list, `render_directory` never panics, it
fails exactly when `block_size_limit` is set and the exact encoded size
exceeds it, and the only error is the block-too-large kind carrying that
computed encoded size. -/
theorem render_failure_iff (links : Leaves) (limit : Option Nat)
    (hfull : links.all Option.isSome = true) :
    render_directory links limit ≠ none ∧
    ((∃ e, render_directory links limit = some (.error e)) ↔
      ∃ l, limit = some l ∧ l < specGetSize links) ∧
    ∀ e, render_directory links limit = some (.error e) →
      e = .tooLargeBlock (specGetSize links) := by
  have hbody : render_directory.renderBody links =
      some (.ok (⟨specHash (specEncode links), (specEncode links).length + sumSizes links⟩,
        specEncode links)) := by
    simp [render_directory.renderBody, hfull]
  cases limit with
  | none =>
    rw [render_directory_none_eq, hbody]
    refine ⟨by simp, by simp, by simp⟩
  | some l =>
    rw [render_directory_some_eq]
    by_cases hl : l < specGetSize links
    · rw [if_pos hl]
      refine ⟨by simp, ?_, ?_⟩
      · constructor
        · intro _
          exact ⟨l, rfl, hl⟩
        · intro _
          exact ⟨.tooLargeBlock (specGetSize links), rfl⟩
      · intro e he
        simp only [Option.some.injEq] at he
        cases he
        rfl
    · rw [if_neg hl, hbody]
      refine ⟨by simp, ?_, by simp⟩
      constructor
      · rintro ⟨e, he⟩
        simp at he
      · rintro ⟨l2, hl2, hlt⟩
        injection hl2 with h2
        subst h2
        exact absurd hlt hl

theorem render_failure_iff_witness :
    ([some (⟨"a", 1, 2⟩ : NamedLeaf)].all Option.isSome = true) ∧
    (render_directory [some ⟨"a", 1, 2⟩] (some 0) ≠ none ∧
     ((∃ e, render_directory [some ⟨"a", 1, 2⟩] (some 0) = some (.error e)) ↔
       ∃ l, (some 0 : Option Nat) = some l ∧ l < specGetSize [some ⟨"a", 1, 2⟩]) ∧
     ∀ e, render_directory [some ⟨"a", 1, 2⟩] (some 0) = some (.error e) →
       e = .tooLargeBlock (specGetSize [some ⟨"a", 1, 2⟩])) :=
  ⟨by decide, render_failure_iff [some ⟨"a", 1, 2⟩] (some 0) (by decide)⟩

/-- C6: a link list accepted by `render_directory` yields a cumulative size
equal to the exact encoded block length plus the sum of the links' cumulative
sizes, the produced block being exactly the encoded bytes; in particular an
empty directory's cumulative size equals its own block length. -/
theorem size_aggregation (links : Leaves) (limit : Option Nat) (leaf : Leaf)
    (bytes : List Nat)
    (hok : render_directory links limit = some (.ok (leaf, bytes))) :
    leaf.total_size = bytes.length + sumSizes links ∧ bytes = specEncode links ∧
    (links = [] → leaf.total_size = bytes.length) := by
  have hb : render_directory.renderBody links = some (.ok (leaf, bytes)) := by
    cases limit with
    | none =>
      rw [render_directory_none_eq] at hok
      exact hok
    | some l =>
      rw [render_directory_some_eq] at hok
      by_cases hl : l < specGetSize links
      · rw [if_pos hl] at hok
        cases hok
      · rw [if_neg hl] at hok
        exact hok
  rw [render_directory.renderBody] at hb
  by_cases hfull : links.all Option.isSome
  · rw [if_pos hfull] at hb
    simp only [Option.some.injEq, Except.ok.injEq, Prod.mk.injEq] at hb
    obtain ⟨hleaf, hbytes⟩ := hb
    subst hbytes
    refine ⟨?_, rfl, ?_⟩
    · rw [← hleaf]
    · intro hnil
      subst hnil
      rw [← hleaf]
      simp [sumSizes]
  · rw [if_neg hfull] at hb
    cases hb

theorem size_aggregation_witness :
    render_directory [] none =
      some (.ok (⟨specHash (specEncode []), (specEncode []).length + sumSizes []⟩,
        specEncode [])) ∧
    ((⟨specHash (specEncode []), (specEncode []).length + sumSizes []⟩ : Leaf).total_size =
        (specEncode []).length + sumSizes [] ∧
      specEncode [] = specEncode [] ∧
      (([] : Leaves) = [] →
        (⟨specHash (specEncode []), (specEncode []).length + sumSizes []⟩ : Leaf).total_size =
          (specEncode []).length)) :=
  ⟨rfl, size_aggregation [] none _ _ rfl⟩

/-- C7: the path tracker returns normally only with the tracked depth equal
to the target depth; a target depth below 2 resets the buffer to the empty
path before appending the name, if present; and on the tree
`root/{a/{x}, b}` with wrapping, the record of directory `a` carries path
"a" and the wrapping root record the empty path. -/
theorem path_tracker_correct :
    (∀ fp od name depth fp2 od2,
        update_full_path fp od name depth = some (fp2, od2) → od2 = depth) ∧
    (∀ fp od n, update_full_path fp od (some n) 1 = some (n, 1)) ∧
    (∀ fp od, update_full_path fp od none 0 = some ([], 0)) ∧
    ((okRecords (runAll (PostOrderIterator.new tree7 ⟨none, true⟩ 0)).1).map TreeNode.path
      = ["a".data, []]) := by
  refine ⟨?_, ?_, ?_, ?_⟩
  · intro fp od name depth fp2 od2 h
    exact update_returns_depth h
  · intro fp od n
    simp [update_full_path, updateAppend]
  · intro fp od
    exact update_root fp od
  · rw [← runAllFuel_eq 32 (PostOrderIterator.new tree7 ⟨none, true⟩ 0) (by decide)]
    decide

/-- C4: post-order emission: with wrapping and no size limit, for every
directory `D` of the input tree with a subdirectory child `C`, the record
emitted for `C` appears strictly before the record emitted for `D` in the
pull sequence. -/
theorem post_order_emission (t D C : DirBuilder) (segs : List (List Char)) (k : String)
    (opts : TreeOptions) (lp : Nat) (hwf : WF t)
    (hlimit : opts.block_size_limit = none) (hwrap : opts.wrap_with_directory = true)
    (hsub : SubtreeAt t segs D) (hc : DirChild D k C) :
    appearsBefore (Except.ok (refRecord C (segs ++ [k.data])))
      (Except.ok (refRecord D segs))
      (runAll (PostOrderIterator.new t opts lp)).1 := by
  obtain ⟨hwfN, hnodup⟩ := hwf
  rw [sim_run t opts lp hwfN hnodup hlimit]
  apply appearsBefore_map
  obtain ⟨a, b, hab⟩ := run_infix_of_subtree hsub opts hwrap
  obtain ⟨x, y, hxy⟩ := childrenOut_infix_of_child hc segs
  refine ⟨a ++ (x ++ refChildrenOut C.nodes (segs ++ [k.data])), y, b, ?_⟩
  rw [hab, refOutputs_def D, hxy, refOutputs_def C]
  simp

theorem post_order_emission_witness :
    WF tree7 ∧
    appearsBefore (Except.ok (refRecord tree7a ([] ++ ["a".data])))
      (Except.ok (refRecord tree7 []))
      (runAll (PostOrderIterator.new tree7 ⟨none, true⟩ 0)).1 :=
  ⟨⟨by decide, by decide⟩,
    post_order_emission tree7 tree7 tree7a [] "a" ⟨none, true⟩ 0 ⟨by decide, by decide⟩
      rfl rfl .refl ⟨.nil, .cons "b" (.leaf 8 3) .nil, rfl⟩⟩

/-- C5: reverse-sibling ordering: with no size limit, for every directory of
the tree with two subdirectory children, the record of the later child in the
ordered children appears strictly before the record of the earlier one. -/
theorem reverse_sibling_order (t D C1 C2 : DirBuilder) (segs : List (List Char))
    (k1 k2 : String) (opts : TreeOptions) (lp : Nat) (hwf : WF t)
    (hlimit : opts.block_size_limit = none)
    (hsub : SubtreeAt t segs D) (hp : DirChildPair D k1 C1 k2 C2) :
    appearsBefore (Except.ok (refRecord C2 (segs ++ [k2.data])))
      (Except.ok (refRecord C1 (segs ++ [k1.data])))
      (runAll (PostOrderIterator.new t opts lp)).1 := by
  obtain ⟨hwfN, hnodup⟩ := hwf
  rw [sim_run t opts lp hwfN hnodup hlimit]
  apply appearsBefore_map
  obtain ⟨A, B, hAB⟩ := run_infix_children_of_subtree hsub opts
  obtain ⟨pre, mid, post, hn⟩ := hp
  obtain ⟨a, ha⟩ := refChildrenOut_append_ex pre
    (.cons k1 (.directory C1) (EntryList.append mid (.cons k2 (.directory C2) post))) segs
  obtain ⟨a2, ha2⟩ := refChildrenOut_append_ex mid (.cons k2 (.directory C2) post) segs
  refine ⟨A ++ (refChildrenOut post segs ++ refChildrenOut C2.nodes (segs ++ [k2.data])),
    a2 ++ refChildrenOut C1.nodes (segs ++ [k1.data]), a ++ B, ?_⟩
  rw [hAB, hn, ha, refChildrenOut_cons_dir, ha2, refChildrenOut_cons_dir,
    refOutputs_def C1, refOutputs_def C2]
  simp

theorem reverse_sibling_order_witness :
    WF cexTreeErr ∧
    appearsBefore (Except.ok (refRecord cexTreeErrB ([] ++ ["b".data])))
      (Except.ok (refRecord cexTreeErrA ([] ++ ["a".data])))
      (runAll (PostOrderIterator.new cexTreeErr ⟨none, true⟩ 0)).1 :=
  ⟨⟨by decide, by decide⟩,
    reverse_sibling_order cexTreeErr cexTreeErr cexTreeErrA cexTreeErrB [] "a" "b"
      ⟨none, true⟩ 0 ⟨by decide, by decide⟩ rfl .refl ⟨.nil, .nil, .nil, rfl⟩⟩

/-- C3 (amended): with no size limit on a well-formed tree, the run with
wrapping equals the run without wrapping followed by exactly one extra final
record, the root's; without wrapping the root emits no record at all — the
output is exactly the children's records. -/
theorem wrap_toggle_amended (t : DirBuilder) (lp1 lp2 : Nat) (hwf : WF t) :
    (runAll (PostOrderIterator.new t ⟨none, true⟩ lp1)).1 =
      (runAll (PostOrderIterator.new t ⟨none, false⟩ lp2)).1 ++
        [Except.ok (refRecord t [])] ∧
    (runAll (PostOrderIterator.new t ⟨none, false⟩ lp2)).1 =
      (refChildrenOut t.nodes []).map Except.ok := by
  obtain ⟨hwfN, hnodup⟩ := hwf
  rw [sim_run t ⟨none, true⟩ lp1 hwfN hnodup rfl,
    sim_run t ⟨none, false⟩ lp2 hwfN hnodup rfl]
  constructor
  · simp [refRun]
  · simp [refRun]

theorem wrap_toggle_amended_witness :
    WF tree7 ∧
    ((runAll (PostOrderIterator.new tree7 ⟨none, true⟩ 0)).1 =
        (runAll (PostOrderIterator.new tree7 ⟨none, false⟩ 0)).1 ++
          [Except.ok (refRecord tree7 [])] ∧
      (runAll (PostOrderIterator.new tree7 ⟨none, false⟩ 0)).1 =
        (refChildrenOut tree7.nodes []).map Except.ok) :=
  ⟨⟨by decide, by decide⟩, wrap_toggle_amended tree7 0 0 ⟨by decide, by decide⟩⟩

/-- C3 counterexample: with a size limit the wrap toggle does not change the
record count by one: on `cexTreeRoot` with limit 0 both runs contain zero
records — wrapping adds a root error, never a root record, because without
wrapping the root list is not even rendered. -/
theorem wrap_toggle_counterexample :
    (okRecords (runAll (PostOrderIterator.new cexTreeRoot ⟨some 0, false⟩ 0)).1).length =
      (okRecords (runAll (PostOrderIterator.new cexTreeRoot ⟨some 0, true⟩ 0)).1).length ∧
    (runAll (PostOrderIterator.new cexTreeRoot ⟨some 0, true⟩ 0)).1 =
      [Except.error (.tooLargeBlock 4)] ∧
    (runAll (PostOrderIterator.new cexTreeRoot ⟨some 0, false⟩ 0)).1 = [] := by
  rw [← runAllFuel_eq 8 (PostOrderIterator.new cexTreeRoot ⟨some 0, true⟩ 0) (by decide),
    ← runAllFuel_eq 8 (PostOrderIterator.new cexTreeRoot ⟨some 0, false⟩ 0) (by decide)]
  decide

/-- C10: when rendering fails for a named directory whose links were stashed,
the failed pull consumes the stash entry first and writes nothing into the
parent: after the error the failed directory's id is no longer in the stash
while the parent's stashed list — hence the child's still-unfilled slot — is
exactly as before the pull. -/
theorem error_after_consume_before_write (s : PostOrderIterator)
    (parent_id depth : Nat) (nm : String) (index sid : Nat) (rest : List Visited)
    (fp : List Char) (od : Nat) (lvs : Leaves) (e : TreeConstructionFailed)
    (hup : update_full_path s.full_path s.old_depth (some nm.data) depth = some (fp, od))
    (hlook : stashLookup sid s.persisted_cids = some lvs)
    (hrender : render_directory lvs s.opts.block_size_limit = some (.error e))
    (hne : parent_id ≠ sid) :
    ∃ s2, step s (.post parent_id depth nm index (.stashed sid)) rest =
        .ret (.failed e) s2 ∧
      stashLookup sid s2.persisted_cids = none ∧
      stashLookup parent_id s2.persisted_cids = stashLookup parent_id s.persisted_cids ∧
      s2.pending = rest := by
  have hinner : (LeafStorage.stashed sid).into_inner s.persisted_cids =
      some (lvs, eraseKey sid s.persisted_cids) := by
    simp [LeafStorage.into_inner, hlook]
  refine ⟨_, step_post_err hup hinner hrender, ?_, ?_, rfl⟩
  · exact stashLookup_eraseKey_self sid s.persisted_cids
  · exact stashLookup_eraseKey_ne hne s.persisted_cids

theorem error_after_consume_before_write_witness :
    (update_full_path errStashState.full_path errStashState.old_depth
        (some ("c".data)) 1 = some ("c".data, 1)) ∧
    (stashLookup 2 errStashState.persisted_cids = some [some ⟨"x", 5, 7⟩]) ∧
    (render_directory [some ⟨"x", 5, 7⟩] errStashState.opts.block_size_limit =
      some (.error (.tooLargeBlock 4))) ∧
    (0 : Nat) ≠ 2 ∧
    (∃ s2, step errStashState (.post 0 1 "c" 0 (.stashed 2)) [] =
        .ret (.failed (.tooLargeBlock 4)) s2 ∧
      stashLookup 2 s2.persisted_cids = none ∧
      stashLookup 0 s2.persisted_cids = stashLookup 0 errStashState.persisted_cids ∧
      s2.pending = []) :=
  ⟨by decide, by decide, by decide, by decide,
    error_after_consume_before_write errStashState 0 1 "c" 0 2 [] "c".data 1
      [some ⟨"x", 5, 7⟩] (.tooLargeBlock 4) (by decide) (by decide) (by decide) (by decide)⟩

/-- C1 counterexample: an error pull does not end the iteration: on
`cexTreeErr` with limit 1 the first pull fails (subtree b's block is too
large), yet the next pull still yields the record for subtree a, and the full
sequence holds a further error after that. -/
theorem error_not_final_counterexample :
    (next_borrowed (PostOrderIterator.new cexTreeErr ⟨some 1, true⟩ 0)).1 =
      .failed (.tooLargeBlock 4) ∧
    (next_borrowed (next_borrowed (PostOrderIterator.new cexTreeErr ⟨some 1, true⟩ 0)).2).1 =
      .yield ⟨"a".data, 5000023, 1, [1]⟩ ∧
    (runAll (PostOrderIterator.new cexTreeErr ⟨some 1, true⟩ 0)).1 =
      [Except.error (.tooLargeBlock 4), Except.ok ⟨"a".data, 5000023, 1, [1]⟩,
        Except.error (.tooLargeBlock 4)] := by
  rw [← runAllFuel_eq 16 (PostOrderIterator.new cexTreeErr ⟨some 1, true⟩ 0) (by decide),
    ← nextFuel_eq 16 (PostOrderIterator.new cexTreeErr ⟨some 1, true⟩ 0) (by decide)]
  rw [← nextFuel_eq 16 (nextFuel 16 (PostOrderIterator.new cexTreeErr ⟨some 1, true⟩ 0)).2
    (by decide)]
  decide

/-- C1 (amended): exhaustion is final, errors are not.  In any run of the
iterator, once a pull returns `exhausted` (Rust's `None`) the stack is empty
and every subsequent pull again returns `exhausted` without changing the
state.  After an error pull, by contrast, the remaining stack survives and
later pulls may still yield records (see the counterexample). -/
theorem exhaustion_final (t : DirBuilder) (opts : TreeOptions) (lp : Nat)
    (s : PostOrderIterator) (hr : Reaches (PostOrderIterator.new t opts lp) s)
    (hex : (next_borrowed s).1 = .exhausted) :
    (next_borrowed s).2.pending = [] ∧
    ∀ s2, Reaches (next_borrowed s).2 s2 → next_borrowed s2 = (.exhausted, s2) := by
  have hrb0 : rootBottom (PostOrderIterator.new t opts lp) := by
    intro x hx
    simp [PostOrderIterator.new] at hx
  have hrb := reaches_rootBottom hr hrb0
  have hpend := next_exhausted_pending hrb hex
  refine ⟨hpend, ?_⟩
  intro s2 hr2
  rw [reaches_pending_nil hpend hr2]
  exact next_borrowed_nil hpend

theorem exhaustion_final_witness :
    ((next_borrowed (PostOrderIterator.new emptyRoot ⟨none, false⟩ 0)).1 = .exhausted) ∧
    ((next_borrowed (PostOrderIterator.new emptyRoot ⟨none, false⟩ 0)).2.pending = [] ∧
      ∀ s2, Reaches (next_borrowed (PostOrderIterator.new emptyRoot ⟨none, false⟩ 0)).2 s2 →
        next_borrowed s2 = (.exhausted, s2)) :=
  ⟨by rw [← nextFuel_eq 4 (PostOrderIterator.new emptyRoot ⟨none, false⟩ 0) (by decide)]
      decide,
    exhaustion_final emptyRoot ⟨none, false⟩ 0 _ .refl
      (by rw [← nextFuel_eq 4 (PostOrderIterator.new emptyRoot ⟨none, false⟩ 0) (by decide)]
          decide)⟩

/-- C8: stash consistency: in every reachable state of a traversal of a tree
with distinct node ids, an id is a key of the deferred stash exactly when some
pending frame still references it as stashed storage, and those references are
pairwise distinct — so the entry inserted at descend time belongs to exactly
one frame and is removed exactly once, when that frame resolves it.
Moreover a pull that successfully writes a child's finished link back found
the parent id present in the (already resolved) stash and the target slot
still unfilled at the time of the write. -/
theorem stash_consistency (t : DirBuilder) (opts : TreeOptions) (lp : Nat)
    (s : PostOrderIterator) (hr : Reaches (PostOrderIterator.new t opts lp) s)
    (hnodup : (subtreeIds t).Nodup) :
    ((∀ id, (stashLookup id s.persisted_cids).isSome = true ↔
        id ∈ pendRefs s.pending) ∧
      (pendRefs s.pending).Nodup) ∧
    ∀ parent_id depth nm index storage rest tn s2,
      step s (.post parent_id depth nm index storage) rest = .ret (.yield tn) s2 →
      ∃ lvs st1 vec, LeafStorage.into_inner storage s.persisted_cids = some (lvs, st1) ∧
        stashLookup parent_id st1 = some vec ∧ vec[index]? = some none := by
  have hinv := reaches_inv hr (new_inv t opts lp hnodup)
  obtain ⟨hA, hB⟩ := hinv
  refine ⟨⟨hA, (List.nodup_append.mp hB).2.1⟩, ?_⟩
  intro parent_id depth nm index storage rest tn s2 h
  rcases step_cases s (.post parent_id depth nm index storage) rest with
    hc | hc | hc | hc | hc | hc | hc | hc | hc | hc
  · rw [hc] at h
    simp at h
  · obtain ⟨p, nid, nodes, leaves, hv, -, -⟩ := hc
    exact absurd hv (by simp)
  · obtain ⟨p, nid, nodes, leaves, children, hv, -⟩ := hc
    exact absurd hv (by simp)
  · obtain ⟨pid, nid, nodes, nm2, depth2, index2, fp, od, leaves, hv, -⟩ := hc
    exact absurd hv (by simp)
  · obtain ⟨pid, nid, nodes, nm2, depth2, index2, fp, od, leaves, children, hv, -⟩ := hc
    exact absurd hv (by simp)
  · obtain ⟨pid, depth2, nm2, index2, storage2, fp, od, lvs, st1, leaf, bytes, vec,
      vec2, hv, hup, hin, hrd, hlk, hsl, hstep⟩ := hc
    injection hv with h1 h2 h3 h4 h5
    subst h1
    subst h2
    subst h3
    subst h4
    subst h5
    exact ⟨lvs, st1, vec, hin, hlk, setSlot_some_inv hsl⟩
  · obtain ⟨pid, depth2, nm2, index2, storage2, fp, od, lvs, st1, e, hv, hup, hin,
      hrd, hstep⟩ := hc
    rw [hstep] at h
    simp at h
  · obtain ⟨storage2, lvs, st1, hv, -⟩ := hc
    exact absurd hv (by simp)
  · obtain ⟨storage2, lvs, st1, leaf, bytes, hv, -⟩ := hc
    exact absurd hv (by simp)
  · obtain ⟨storage2, lvs, st1, e, hv, -⟩ := hc
    exact absurd hv (by simp)

theorem stash_consistency_witness :
    (subtreeIds cexTreeErr).Nodup ∧
    (((∀ id, (stashLookup id
          (next_borrowed (PostOrderIterator.new cexTreeErr ⟨some 1, true⟩ 0)).2.persisted_cids).isSome
            = true ↔
        id ∈ pendRefs
          (next_borrowed (PostOrderIterator.new cexTreeErr ⟨some 1, true⟩ 0)).2.pending) ∧
      (pendRefs
        (next_borrowed (PostOrderIterator.new cexTreeErr ⟨some 1, true⟩ 0)).2.pending).Nodup) ∧
     ∀ parent_id depth nm index storage rest tn s2,
       step (next_borrowed (PostOrderIterator.new cexTreeErr ⟨some 1, true⟩ 0)).2
           (.post parent_id depth nm index storage) rest = .ret (.yield tn) s2 →
       ∃ lvs st1 vec, LeafStorage.into_inner storage
           (next_borrowed (PostOrderIterator.new cexTreeErr ⟨some 1, true⟩ 0)).2.persisted_cids
           = some (lvs, st1) ∧
         stashLookup parent_id st1 = some vec ∧ vec[index]? = some none) :=
  ⟨by decide, stash_consistency cexTreeErr ⟨some 1, true⟩ 0 _ (.next .refl) (by decide)⟩

end Unixfs
